import Mathlib

/-!
Verification of the `analyse_pdf.py` extraction pipeline (Touch N Pay PDF → CSV).

This file is a shallow embedding of the pipeline's pure core, translated
function by function from `src/analyse_pdf.py`:

* the text normalizer `norm_spaces_keep_lines` (Python `str.splitlines`,
  whitespace collapsing, `str.rstrip`);
* the token and number model (`NUM_TOKEN` regex, `clean_num_tok`);
* the label dictionaries (`LABELS_CA`, `LABELS_VENTES`) and the reverse
  index / line classifier `canonical_from_line`;
* the adaptive line parser `parse_blocks_adaptive` with its helpers
  `find_col_header_positions` and `parse_numbers_from_near`;
* the header and codes extractors `parse_header`, `extract_codes_and_key`;
* the per-document driver `process_pdf` (record assembly and
  completeness scoring) and the fallback chain `extract_text_any`;
* the batch loop of `main` (per-document exception containment).

Python dictionaries are embedded as insertion-ordered association lists
(`dictSet` / `pyUpdate` mirror `d[k] = v` / `d.update(e)`), strings as
`List Char`, and the regular expressions used by the source as explicit
scanners.  External effects (subprocess calls, file writes) are modelled
by passing the would-be results as explicit arguments.
-/

set_option maxRecDepth 100000
set_option maxHeartbeats 1000000

namespace AnalysePdf

/-! ### Character classes (Python semantics) -/

/-- The whitespace set used by Python's `str.strip` / `str.isspace` and by
`re`'s `\s` on `str` patterns (ASCII whitespace, the C1 separators, NEL,
no-break space and the Unicode space separators). -/
def pyWS : Char → Bool := fun c =>
  c = ' ' ∨ c = '\t' ∨ c = '\n' ∨ c = '\r' ∨ c = '\x0b' ∨ c = '\x0c' ∨
  c = '\x1c' ∨ c = '\x1d' ∨ c = '\x1e' ∨ c = '\x1f' ∨ c = '\x85' ∨
  c = ' ' ∨ c = ' ' ∨
  (0x2000 ≤ c.toNat ∧ c.toNat ≤ 0x200A) ∨
  c = ' ' ∨ c = ' ' ∨ c = ' ' ∨ c = ' ' ∨ c = '　'

/-- Line terminators recognised by Python's `str.splitlines`
(`\r` and `\r\n` are handled separately by the splitter itself). -/
def isTerm : Char → Bool := fun c =>
  c = '\n' ∨ c = '\r' ∨ c = '\x0b' ∨ c = '\x0c' ∨
  c = '\x1c' ∨ c = '\x1d' ∨ c = '\x1e' ∨ c = '\x85' ∨
  c = ' ' ∨ c = ' '

/-- Python `str.lower` restricted to the characters the pipeline works with:
ASCII letters plus the accented capitals appearing in the label variants. -/
def pyLowerChar (c : Char) : Char :=
  if 'A' ≤ c ∧ c ≤ 'Z' then Char.ofNat (c.toNat + 32)
  else if c = 'À' then 'à' else if c = 'Â' then 'â'
  else if c = 'Ç' then 'ç' else if c = 'È' then 'è'
  else if c = 'É' then 'é' else if c = 'Ê' then 'ê'
  else if c = 'Ë' then 'ë' else if c = 'Î' then 'î'
  else if c = 'Ï' then 'ï' else if c = 'Ô' then 'ô'
  else if c = 'Ù' then 'ù' else if c = 'Û' then 'û'
  else if c = 'Ü' then 'ü' else c

/-- Python `str.upper` on the same character range. -/
def pyUpperChar (c : Char) : Char :=
  if 'a' ≤ c ∧ c ≤ 'z' then Char.ofNat (c.toNat - 32)
  else if c = 'à' then 'À' else if c = 'â' then 'Â'
  else if c = 'ç' then 'Ç' else if c = 'è' then 'È'
  else if c = 'é' then 'É' else if c = 'ê' then 'Ê'
  else if c = 'ë' then 'Ë' else if c = 'î' then 'Î'
  else if c = 'ï' then 'Ï' else if c = 'ô' then 'Ô'
  else if c = 'ù' then 'Ù' else if c = 'û' then 'Û'
  else if c = 'ü' then 'Ü' else c

def pyLower (s : String) : String := String.mk (s.data.map pyLowerChar)

def pyUpper (s : String) : String := String.mk (s.data.map pyUpperChar)

/-- Python word characters for `\b` boundaries (ASCII range). -/
def isWordChar : Char → Bool := fun c =>
  ('A' ≤ c ∧ c ≤ 'Z') ∨ ('a' ≤ c ∧ c ≤ 'z') ∨ ('0' ≤ c ∧ c ≤ '9') ∨ c = '_'

/-- ASCII decimal digit (the only digits the reports contain). -/
def isDigitA : Char → Bool := fun c => '0' ≤ c ∧ c ≤ '9'

/-! ### Python string primitives -/

/-- Python `str.strip()` (both ends, default whitespace). -/
def pyStripL (l : List Char) : List Char :=
  ((l.dropWhile pyWS).reverse.dropWhile pyWS).reverse

def pyStrip (s : String) : String := String.mk (pyStripL s.data)

/-- Python `str.rstrip()` (right end only, default whitespace). -/
def pyRstripL (l : List Char) : List Char :=
  (l.reverse.dropWhile pyWS).reverse

/-- Embedding of `strip_ok` from the source: `bool(s and s.strip())`, i.e. the string has
at least one non-whitespace character. -/
def strip_ok (s : String) : Bool := s.data.any (fun c => ¬ pyWS c)

/-- Python `str.splitlines`, worker: accumulates the current line (reversed)
and splits at each terminator, treating `\r\n` as a single break and not
producing a final empty line after a trailing terminator. -/
def pySplitAux : List Char → List Char → List (List Char)
  | acc, [] => [acc.reverse]
  | acc, c :: cs =>
    if isTerm c then
      match c, cs with
      | '\r', '\n' :: [] => [acc.reverse]
      | '\r', '\n' :: d :: ds => acc.reverse :: pySplitAux [] (d :: ds)
      | _, [] => [acc.reverse]
      | _, d :: ds => acc.reverse :: pySplitAux [] (d :: ds)
    else
      pySplitAux (c :: acc) cs

/-- Python `str.splitlines` on `List Char` (empty string gives no lines). -/
def pySplitlinesL (l : List Char) : List (List Char) :=
  match l with
  | [] => []
  | c :: cs => pySplitAux [] (c :: cs)

def pySplitlines (s : String) : List String :=
  (pySplitlinesL s.data).map String.mk

/-- One step of collapsing runs of space / no-break space to a single space
(`re.sub(r"[  ]+", " ", ln)`); the Boolean records whether the previous
character was part of a run. -/
def isCollapsible : Char → Bool := fun c => c = ' ' ∨ c = ' '

def collapseGo : Bool → List Char → List Char
  | _, [] => []
  | inRun, c :: cs =>
    if isCollapsible c then
      if inRun then collapseGo true cs else ' ' :: collapseGo true cs
    else
      c :: collapseGo false cs

def collapseL (l : List Char) : List Char := collapseGo false l

/-- Embedding of `"\n".join` on `List Char` lines. -/
def joinNL : List (List Char) → List Char
  | [] => []
  | [l] => l
  | l :: l2 :: ls => l ++ '\n' :: joinNL (l2 :: ls)

/-- Embedding of `norm_spaces_keep_lines` from the source: drop `\r`, then per line
collapse space runs and strip trailing whitespace, re-joining with `\n`. -/
def norm_spaces_keep_lines (s : String) : String :=
  String.mk
    (joinNL
      ((pySplitlinesL (s.data.filter (fun c => c ≠ '\r'))).map
        (fun ln => pyRstripL (collapseL ln))))

/-- Collapse every run of `\s+` to a single space
(`re.sub(r"\s+", " ", s)`, no stripping). -/
def collapseWsGo : Bool → List Char → List Char
  | _, [] => []
  | inRun, c :: cs =>
    if pyWS c then
      if inRun then collapseWsGo true cs else ' ' :: collapseWsGo true cs
    else
      c :: collapseWsGo false cs

def collapseAllWS (s : String) : String := String.mk (collapseWsGo false s.data)

/-- Embedding of `squash` from the source: `re.sub(r"\s+", " ", s).strip()`. -/
def squash (s : String) : String := pyStrip (collapseAllWS s)

/-! ### Python dictionaries as insertion-ordered association lists -/

/-- A Python `dict[str, str]`: an insertion-ordered association list whose
keys are unique. -/
abbrev PyDict := List (String × String)

/-- Embedding of `d[k] = v`: replace the value in place if the key exists (the key keeps
its insertion position), else append the new pair at the end. -/
def dictSet : PyDict → String → String → PyDict
  | [], k, v => [(k, v)]
  | a :: t, k, v => if a.1 = k then (k, v) :: t else a :: dictSet t k v

/-- Embedding of `d.update(e)`: set every pair of `e` in order. -/
def pyUpdate (d e : PyDict) : PyDict :=
  e.foldl (fun acc p => dictSet acc p.1 p.2) d

/-- Embedding of `d.get(k)`. -/
def dictGet (d : PyDict) (k : String) : Option String :=
  (d.find? (fun p => p.1 = k)).map Prod.snd

/-- Embedding of `d.get(k, "")` — lookup with empty-string default. -/
def dictGetD (d : PyDict) (k : String) : String := (dictGet d k).getD ""

/-- The keys of a dictionary, in order. -/
def dictKeys (d : PyDict) : List String := d.map Prod.fst

/-! ### Token and number model -/

/-- One attempt to match the `NUM_TOKEN` regex
`-?\d+(?:[.,]\d+)?(?:\s*€)?` at the head of the input; on success returns
the matched characters and the rest of the input. -/
def tryTok (l : List Char) : Option (List Char × List Char) :=
  let signRest : List Char × List Char :=
    match l with
    | '-' :: rest => (['-'], rest)
    | _ => ([], l)
  let ds := signRest.2.takeWhile isDigitA
  if ds.isEmpty then none
  else
    let l2 := signRest.2.drop ds.length
    let fracRest : List Char × List Char :=
      match l2 with
      | c :: rest =>
        if c = '.' ∨ c = ',' then
          let fs := rest.takeWhile isDigitA
          if fs.isEmpty then ([], l2) else (c :: fs, rest.drop fs.length)
        else ([], l2)
      | [] => ([], l2)
    let l3 := fracRest.2
    let ws := l3.takeWhile pyWS
    let eurRest : List Char × List Char :=
      match l3.drop ws.length with
      | '€' :: rest => (ws ++ ['€'], rest)
      | _ => ([], l3)
    some (signRest.1 ++ ds ++ fracRest.1 ++ eurRest.1, eurRest.2)

/-- Embedding of `TOKEN_RE.findall`, fuelled scanner (each step consumes at least one
character, so `fuel = length` suffices). -/
def findAllF : Nat → List Char → List (List Char)
  | 0, _ => []
  | _ + 1, [] => []
  | fuel + 1, c :: cs =>
    match tryTok (c :: cs) with
    | some (tok, rest) => tok :: findAllF fuel rest
    | none => findAllF fuel cs

/-- All matches of `NUM_TOKEN` in a string, left to right, non-overlapping. -/
def findallNum (s : String) : List String :=
  (findAllF s.data.length s.data).map String.mk

/-- Embedding of `clean_num_tok` from the source: drop `€`, strip, comma to point. -/
def clean_num_tok (tok : String) : String :=
  if tok = "" then ""
  else
    String.mk
      (((pyStripL (tok.data.filter (fun c => c ≠ '€'))).map
        (fun c => if c = ',' then '.' else c)))

/-! ### Label dictionaries -/

/-- Embedding of `LABELS_CA`: canonical turnover field → expected label variants. -/
def LABELS_CA : List (String × List String) :=
  [("CA total", ["CA Total", "Total CA", "Total", "Total turnover"]),
   ("CA Espece", ["CA Espèces", "CA Espece", "Espèces", "Cash", "Cash turnover"]),
   ("CA Cashless1", ["Cashless 1", "Cashless turnover 1"]),
   ("CA Cashless1 Aztek", ["Cashless 1 Aztek", "Aztek cashless turnover 1", "Aztek 1"]),
   ("CA Cashless2", ["Cashless 2", "Cashless turnover 2"]),
   ("CA Cashless2 Aztek", ["Cashless 2 Aztek", "Aztek cashless turnover 2", "Aztek 2"])]

/-- Embedding of `LABELS_VENTES`: canonical sales field → expected label variants. -/
def LABELS_VENTES : List (String × List String) :=
  [("Vente Total", ["Ventes Total", "Vente Total", "Total vends", "Total sales"]),
   ("Vente Espece", ["Ventes Espèces", "Vente Espèces", "Cash vends", "Cash sales", "Vends Cash"]),
   ("Vente Cashless1", ["Ventes Cashless 1", "Vente Cashless 1", "Cashless vends 1", "Cashless sales 1"]),
   ("Vente Cashless1 Aztek", ["Ventes Cashless 1 Aztek", "Vente Cashless 1 Aztek", "Aztek cashless vends 1", "Aztek sales 1"]),
   ("Vente Cashless2", ["Ventes Cashless 2", "Vente Cashless 2", "Cashless vends 2", "Cashless sales 2"]),
   ("Vente Cashless2 Aztek", ["Ventes Cashless 2 Aztek", "Vente Cashless 2 Aztek", "Aztek cashless vends 2", "Aztek sales 2"])]

/-- Embedding of `COL_HEADERS`: the column-header variants (Cumul, Interim, Interim 2). -/
def COL_HEADERS : List (List String) :=
  [["Cumul", "Cumulation", "Cumulated", "Cumulative"],
   ["Interim", "Interim."],
   ["Interim 2", "Interim2", "Interim2.", "Interim. 2", "Interim.2"]]

/-- Embedding of `build_reverse_index`: lowered variant → canonical label, in insertion
order (the Python `dict` preserves it). -/
def build_reverse_index (m : List (String × List String)) : List (String × String) :=
  m.flatMap (fun p => p.2.map (fun v => (pyLower v, p.1)))

def IDX_CA : List (String × String) := build_reverse_index LABELS_CA

def IDX_V : List (String × String) := build_reverse_index LABELS_VENTES

/-- The canonical field names of one group. -/
def canonNames (is_ca : Bool) : List String :=
  (if is_ca then LABELS_CA else LABELS_VENTES).map Prod.fst

/-- Python `s.startswith(p)`. -/
def pyStartsWith (p s : String) : Bool := p.data.isPrefixOf s.data

/-- The fixed CSV schema `HEADERS`. -/
def HEADERS : List String :=
  ["id", "date", "Numéro de relevé",
   "CA total_Cumul", "CA total_Interim", "CA total_Interim2",
   "CA Espece_Cumul", "CA Espece_Interim", "CA Espece_Interim2",
   "CA Cashless1_Cumul", "CA Cashless1_Interim", "CA Cashless1_Interim2",
   "CA Cashless1 Aztek_Cumul", "CA Cashless1 Aztek_Interim", "CA Cashless1 Aztek_Interim2",
   "CA Cashless2_Cumul", "CA Cashless2_Interim", "CA Cashless2_Interim2",
   "CA Cashless2 Aztek_Cumul", "CA Cashless2 Aztek_Interim", "CA Cashless2 Aztek_Interim2",
   "Vente Total_Cumul", "Vente Total_Interim", "Vente Total_Interim2",
   "Vente Espece_Cumul", "Vente Espece_Interim", "Vente Espece_Interim2",
   "Vente Cashless1_Cumul", "Vente Cashless1_Interim", "Vente Cashless1_Interim2",
   "Vente Cashless1 Aztek_Cumul", "Vente Cashless1 Aztek_Interim", "Vente Cashless1 Aztek_Interim2",
   "Vente Cashless2_Cumul", "Vente Cashless2_Interim", "Vente Cashless2_Interim2",
   "Vente Cashless2 Aztek_Cumul", "Vente Cashless2 Aztek_Interim", "Vente Cashless2 Aztek_Interim2",
   "Code gratuit 1", "Code gratuit 2", "Code gratuit 3", "Code gratuit 4",
   "Code gratuit 5", "Code gratuit 6", "Code gratuit 7", "key 1"]

/-- The 36 numeric CA/Vente slot columns of the schema. -/
def slotKeys : List String :=
  HEADERS.filter (fun k => pyStartsWith "CA " k || pyStartsWith "Vente " k)

/-! ### Substring containment (Python `in`) -/

/-- Embedding of `needle ⊆ hay` as Python's `in` operator on strings. -/
def containsSubL (needle : List Char) : List Char → Bool
  | [] => needle.isEmpty
  | c :: cs => needle.isPrefixOf (c :: cs) || containsSubL needle cs

def containsSub (needle hay : String) : Bool := containsSubL needle.data hay.data

/-- First index at which `needle` occurs in `hay` (leftmost match). -/
def findSubIdxL (needle : List Char) : List Char → Option Nat
  | [] => if needle.isEmpty then some 0 else none
  | c :: cs =>
    if needle.isPrefixOf (c :: cs) then some 0
    else (findSubIdxL needle cs).map (· + 1)

/-! ### The adaptive line parser -/

/-- Embedding of `match_any` from the source (case-insensitive equality or containment). -/
def match_any (token : String) (variants : List String) : Bool :=
  variants.any (fun v =>
    pyLower token = pyLower v || containsSub (pyLower v) (pyLower token))

/-- Embedding of `canonical_from_line`: classify one line as a canonical field, first by
reverse-index containment scan, then by the bonus keyword rules. -/
def canonical_from_line (ln : String) (is_ca : Bool) : Option String :=
  let low := pyLower ln
  let idx := if is_ca then IDX_CA else IDX_V
  match idx.find? (fun p => containsSub p.1 low) with
  | some p => some p.2
  | none =>
    if containsSub "cashless" low ∧ containsSub "1" low ∧ containsSub "aztek" low then
      some (if is_ca then "CA Cashless1 Aztek" else "Vente Cashless1 Aztek")
    else if containsSub "cashless" low ∧ containsSub "2" low ∧ containsSub "aztek" low then
      some (if is_ca then "CA Cashless2 Aztek" else "Vente Cashless2 Aztek")
    else if containsSub "cashless" low ∧ containsSub "1" low then
      some (if is_ca then "CA Cashless1" else "Vente Cashless1")
    else if containsSub "cashless" low ∧ containsSub "2" low then
      some (if is_ca then "CA Cashless2" else "Vente Cashless2")
    else if containsSub "espèces" low ∨ containsSub "especes" low ∨ containsSub "cash " low then
      some (if is_ca then "CA Espece" else "Vente Espece")
    else if containsSub "total" low then
      some (if is_ca then "CA total" else "Vente Total")
    else none

/-- Embedding of `find_col_header_positions`: the first of the first 200 lines containing
both a Cumul variant and an Interim variant. -/
def find_col_header_positions (lines_norm : List String) : Option Nat :=
  ((lines_norm.take 200).enum.find? (fun p =>
    let low := pyLower p.2
    ((COL_HEADERS.getD 0 []).any (fun x => containsSub (pyLower x) low)) &&
    ((COL_HEADERS.getD 1 []).any (fun x => containsSub (pyLower x) low)))).map Prod.fst

/-- Embedding of `parse_numbers_from_near`: up to three cleaned numeric tokens taken from
`max_span` lines starting at `start_idx`. -/
def parse_numbers_from_near (lines_norm : List String) (start_idx : Nat)
    (max_span : Nat) : List String :=
  ((((lines_norm.drop start_idx).take max_span).flatMap
      (fun ln => (findallNum ln).map clean_num_tok)).filter
    (fun v => v ≠ "")).take 3

/-- One iteration of the `feed_section` loop in `parse_blocks_adaptive`:
if the line carries a known label, store the up-to-three nearby numbers
under the `_Cumul` / `_Interim` / `_Interim2` keys of its canonical field. -/
def feedStep (is_ca : Bool) (lines_norm : List String) (header_idx : Option Nat)
    (out : PyDict) (p : Nat × String) : PyDict :=
  match canonical_from_line p.2 is_ca with
  | none => out
  | some canon =>
    let start := match header_idx with
      | none => p.1
      | some h => max p.1 h
    let nums := parse_numbers_from_near lines_norm start 6
    let a := nums.getD 0 ""
    let b := nums.getD 1 ""
    let c := nums.getD 2 ""
    dictSet (dictSet (dictSet out (canon ++ "_Cumul") a)
      (canon ++ "_Interim") b) (canon ++ "_Interim2") c

/-- The `for i, ln in enumerate(lines_norm)` loop of `feed_section`,
as a recursion carrying the enumeration counter. -/
def feedGo (is_ca : Bool) (lines_norm : List String) (header_idx : Option Nat) :
    Nat → List String → PyDict → PyDict
  | _, [], out => out
  | i, ln :: rest, out =>
    feedGo is_ca lines_norm header_idx (i + 1) rest
      (feedStep is_ca lines_norm header_idx out (i, ln))

/-- Embedding of `feed_section` from the source: scan every line of one group. -/
def feedSection (is_ca : Bool) (lines_norm : List String)
    (header_idx : Option Nat) (out : PyDict) : PyDict :=
  feedGo is_ca lines_norm header_idx 0 lines_norm out

/-- The non-blank lines of a text, each normalized, as in
`parse_blocks_adaptive`. -/
def linesNorm (text : String) : List String :=
  ((pySplitlines text).filter (fun ln => strip_ok ln)).map norm_spaces_keep_lines

/-- Embedding of `parse_blocks_adaptive`: line-based parsing of the CA group then the
Ventes group, against the optional column-header position. -/
def parse_blocks_adaptive (text : String) : PyDict :=
  let lines_norm := linesNorm text
  let header_idx := find_col_header_positions lines_norm
  feedSection false lines_norm header_idx
    (feedSection true lines_norm header_idx [])

/-! ### Regex scanners for the header and codes extractors -/

/-- Case-insensitive literal prefix match (compare via `pyLowerChar`),
returning the rest of the input. -/
def matchLitCI : List Char → List Char → Option (List Char)
  | [], l => some l
  | _ :: _, [] => none
  | p :: ps, c :: cs =>
    if pyLowerChar c = pyLowerChar p then matchLitCI ps cs else none

/-- Embedding of `\s+`: at least one whitespace character. -/
def matchWsPlus (l : List Char) : Option (List Char) :=
  let ws := l.takeWhile pyWS
  if ws.isEmpty then none else some (l.drop ws.length)

/-- Embedding of `\s*`. -/
def matchWsStar (l : List Char) : List Char := l.dropWhile pyWS

/-- Embedding of `\d+` (capture the digits). -/
def matchDigits (l : List Char) : Option (List Char × List Char) :=
  let ds := l.takeWhile isDigitA
  if ds.isEmpty then none else some (ds, l.drop ds.length)

/-- Does `\d{2}/\d{2}/\d{4}` match at the head of the input? -/
def dateAtL : List Char → Bool
  | a :: b :: '/' :: c :: d :: '/' :: e :: f :: g :: h :: _ =>
    isDigitA a && isDigitA b && isDigitA c && isDigitA d &&
    isDigitA e && isDigitA f && isDigitA g && isDigitA h
  | _ => false

/-- Index of the first suffix satisfying a predicate. -/
def firstSuffixIdx (p : List Char → Bool) : List Char → Option Nat
  | [] => if p [] then some 0 else none
  | c :: cs =>
    if p (c :: cs) then some 0 else (firstSuffixIdx p cs).map (· + 1)

/-- Embedding of `re.sub(r"\s*\d{2}/\d{2}/\d{4}.*$", "", s)`: cut the string at the first
date occurrence, together with the whitespace run right before it. -/
def stripDateSuffix (s : String) : String :=
  match firstSuffixIdx dateAtL s.data with
  | none => s
  | some k =>
    let kept := s.data.take k
    String.mk (kept.reverse.dropWhile pyWS).reverse

/-- Embedding of `get_first(r"\b(\d{2}/\d{2}/\d{4})\b", text)`: first date with word
boundaries on both sides, or the empty string. -/
def getFirstDate (s : String) : String :=
  match (s.data.tails.enum.find? (fun p =>
    dateAtL p.2 &&
    (p.1 = 0 || !(isWordChar (s.data.getD (p.1 - 1) ' '))) &&
    (decide (p.1 + 10 = s.data.length) || !(isWordChar (s.data.getD (p.1 + 10) ' ')))))
  with
  | some p => String.mk (p.2.take 10)
  | none => ""

/-- Match `(?:Num[ée]ro\s+de\s+relev[ée]|Report\s+number)\s*:\s*([0-9]+)`
(ignore-case) at the head of the input, returning the captured digits. -/
def matchNumRelAt (l : List Char) : Option (List Char) :=
  let afterLabel : Option (List Char) :=
    match matchLitCI "num".data l with
    | some r1 =>
      (match r1 with
       | c :: r2 =>
         if pyLowerChar c = 'e' ∨ pyLowerChar c = 'é' then
           match matchLitCI "ro".data r2 with
           | some r3 =>
             match matchWsPlus r3 with
             | some r4 =>
               match matchLitCI "de".data r4 with
               | some r5 =>
                 match matchWsPlus r5 with
                 | some r6 =>
                   match matchLitCI "relev".data r6 with
                   | some (d :: r7) =>
                     if pyLowerChar d = 'e' ∨ pyLowerChar d = 'é' then some r7 else none
                   | _ => none
                 | none => none
               | none => none
             | none => none
           | none => none
         else none
       | [] => none)
    | none =>
      match matchLitCI "report".data l with
      | some r1 =>
        match matchWsPlus r1 with
        | some r2 => matchLitCI "number".data r2
        | none => none
      | none => none
  match afterLabel with
  | none => none
  | some r =>
    match matchWsStar r with
    | ':' :: r2 => (matchDigits (matchWsStar r2)).map Prod.fst
    | _ => none

/-- First match of the report-number pattern anywhere in the text. -/
def getFirstNumRel (s : String) : String :=
  match s.data.tails.findSome? matchNumRelAt with
  | some ds => String.mk ds
  | none => ""

/-- Embedding of `parse_header` from the source: identifier line (first of the first 150
non-blank lines containing `TOUCH`, squashed, date suffix stripped), first
date and first report number. -/
def parse_header (text : String) : PyDict :=
  let lines := (pySplitlines text).filter (fun ln => strip_ok ln)
  let joined := String.intercalate "\n" lines
  let id_val :=
    match (lines.take 150).find? (fun ln => containsSub "TOUCH" (pyUpper ln)) with
    | some ln => stripDateSuffix (squash ln)
    | none => ""
  [("id", id_val), ("date", getFirstDate joined),
   ("Numéro de relevé", getFirstNumRel joined)]

/-- Match `(?:Code\s+gratuit|Free\s+code)\s+(\d+)\s*:\s*([0-9]+(?:\*\*[0-9]/[0-9])?)`
(ignore-case) at the head, returning (index digits, value, rest). -/
def matchCodeAt (l : List Char) : Option (List Char × List Char × List Char) :=
  let afterLabel : Option (List Char) :=
    match matchLitCI "code".data l with
    | some r1 =>
      (match matchWsPlus r1 with
       | some r2 => matchLitCI "gratuit".data r2
       | none => none)
    | none =>
      match matchLitCI "free".data l with
      | some r1 =>
        match matchWsPlus r1 with
        | some r2 => matchLitCI "code".data r2
        | none => none
      | none => none
  match afterLabel with
  | none => none
  | some r =>
    match matchWsPlus r with
    | none => none
    | some r2 =>
      match matchDigits r2 with
      | none => none
      | some (idx, r3) =>
        match matchWsStar r3 with
        | ':' :: r4 =>
          match matchDigits (matchWsStar r4) with
          | none => none
          | some (v, r5) =>
            match r5 with
            | '*' :: '*' :: a :: '/' :: b :: r6 =>
              if isDigitA a && isDigitA b then
                some (idx, v ++ ['*', '*', a, '/', b], r6)
              else some (idx, v, r5)
            | _ => some (idx, v, r5)
        | _ => none

/-- Embedding of `re.findall` for the free-code pattern (non-overlapping, left to right). -/
def findAllCodesF : Nat → List Char → List (List Char × List Char)
  | 0, _ => []
  | _ + 1, [] => []
  | fuel + 1, c :: cs =>
    match matchCodeAt (c :: cs) with
    | some (idx, v, rest) => (idx, v) :: findAllCodesF fuel rest
    | none => findAllCodesF fuel cs

/-- Match `\bkey\s*1\s*:\s*([A-Za-z0-9]+)` at offset `i` of `l`
(the word boundary looks at the previous character). -/
def matchKeyAt (l : List Char) (i : Nat) (suffix : List Char) : Option (List Char) :=
  if i = 0 || !(isWordChar (l.getD (i - 1) ' ')) then
    match matchLitCI "key".data suffix with
    | none => none
    | some r1 =>
      match matchWsStar r1 with
      | '1' :: r2 =>
        match matchWsStar r2 with
        | ':' :: r3 =>
          let v := (matchWsStar r3).takeWhile (fun c => isWordChar c && c ≠ '_')
          if v.isEmpty then none else some v
        | _ => none
      | _ => none
  else none

/-- Embedding of `get_first(r"\bkey\s*1\s*:\s*([A-Za-z0-9]+)", flat, re.IGNORECASE)`. -/
def getFirstKey (s : String) : String :=
  match s.data.tails.enum.findSome? (fun p => matchKeyAt s.data p.1 p.2) with
  | some v => String.mk v
  | none => ""

/-- Embedding of `extract_codes_and_key` from the source. -/
def extract_codes_and_key (text : String) : PyDict :=
  let flat := collapseAllWS text
  let pairs := findAllCodesF flat.data.length flat.data
  let out := pairs.foldl
    (fun d p => dictSet d ("Code gratuit " ++ String.mk p.1) (String.mk p.2)) []
  let k1 := getFirstKey flat
  if k1 ≠ "" then dictSet out "key 1" k1 else out

/-! ### Record assembly and completeness scoring (`process_pdf`) -/

/-- The blank record: every schema column mapped to the empty string. -/
def row0 : PyDict := HEADERS.map (fun k => (k, ""))

/-- Embedding of `MIN_NUMERIC_FIELDS` from the source configuration. -/
def MIN_NUMERIC_FIELDS : Nat := 6

/-- Digit-group continuation for Python `float` (underscores allowed only
between digits). -/
def digitsUGo : List Char → List Char
  | [] => []
  | '_' :: rest =>
    (match rest with
     | c :: cs => if isDigitA c then digitsUGo cs else '_' :: rest
     | [] => ['_'])
  | c :: cs => if isDigitA c then digitsUGo cs else c :: cs

/-- A digit group for Python `float`: at least one digit, underscores only
between digits; returns the rest of the input. -/
def matchDigitsU : List Char → Option (List Char)
  | c :: cs => if isDigitA c then some (digitsUGo cs) else none
  | [] => none

/-- The mantissa of a Python float literal:
`digits [. digits?] | . digits`. -/
def parseMantissa (l : List Char) : Option (List Char) :=
  match l with
  | '.' :: r => matchDigitsU r
  | _ =>
    match matchDigitsU l with
    | none => none
    | some r =>
      match r with
      | '.' :: r2 =>
        (match matchDigitsU r2 with
         | some r3 => some r3
         | none => some r2)
      | _ => some r

/-- Embedding of `_is_num` from the source: does Python `float(s)` succeed?  Accepts
optional surrounding whitespace, an optional sign, `inf`/`infinity`/`nan`
(any case), or a decimal mantissa with an optional exponent. -/
def pyFloatOk (s : String) : Bool :=
  let t := pyStripL s.data
  let t1 := match t with
    | '+' :: r => r
    | '-' :: r => r
    | _ => t
  let low := t1.map pyLowerChar
  if low = "inf".data ∨ low = "infinity".data ∨ low = "nan".data then true
  else
    match parseMantissa t1 with
    | none => false
    | some rest =>
      match rest with
      | [] => true
      | e :: r2 =>
        if e = 'e' ∨ e = 'E' then
          let r3 := match r2 with
            | '+' :: x => x
            | '-' :: x => x
            | _ => r2
          match matchDigitsU r3 with
          | some [] => true
          | _ => false
        else false

/-- The completeness score of a record: the number of row entries whose key
starts with `CA ` or `Vente ` and whose value parses as a float. -/
def numeric_count (row : PyDict) : Nat :=
  (row.filter (fun p =>
    (pyStartsWith "CA " p.1 || pyStartsWith "Vente " p.1) && pyFloatOk p.2)).length

/-- The record after the header and codes updates, before the numeric merge
(`row.update(parse_header(text)); row.update(extract_codes_and_key(text))`). -/
def rowAfterMeta (text : String) : PyDict :=
  pyUpdate (pyUpdate row0 (parse_header text)) (extract_codes_and_key text)

/-- Embedding of `process_pdf` from the source, with the acquired raw text passed in
(text acquisition is modelled separately by `extract_text_any`): normalize,
assemble the record, and classify by completeness score. -/
def process_pdf (stem raw : String) : PyDict × Bool :=
  let text := norm_spaces_keep_lines raw
  if !(strip_ok text) then (dictSet row0 "id" stem, false)
  else
    let row := pyUpdate (rowAfterMeta text) (parse_blocks_adaptive text)
    (row, decide (MIN_NUMERIC_FIELDS ≤ numeric_count row))

/-! ### Text acquisition chain (`extract_text_any`) -/

/-- Embedding of `extract_text_any` with the four backend outputs passed as arguments
(pdftotext-layout, pdftotext-raw, PyPDF2, OCR); returns the acquired text
and how many backends were invoked. -/
def extract_text_any (b_layout b_raw b_pypdf b_ocr : String) : String × Nat :=
  if strip_ok b_layout then (b_layout, 1)
  else if strip_ok b_raw then (b_raw, 2)
  else if strip_ok b_pypdf then (b_pypdf, 3)
  else (b_ocr, 4)

/-! ### The batch loop of `main` -/

/-- A document in the input folder: its file name and its stem. -/
abbrev PdfDoc := String × String

/-- The identifier-only row written when a document blows up
(`r = {k: "" for k in HEADERS}; r["id"] = pdf.stem`). -/
def errRow (stem : String) : PyDict := dictSet row0 "id" stem

/-- The row the batch loop records for one document. -/
def rowOfStep (step : PdfDoc → Except Unit (PyDict × Bool)) (d : PdfDoc) : PyDict :=
  match step d with
  | .ok r => r.1
  | .error _ => errRow d.2

/-- Is one document counted as failed by the batch loop? -/
def failedOfStep (step : PdfDoc → Except Unit (PyDict × Bool)) (d : PdfDoc) : Bool :=
  match step d with
  | .ok r => !r.2
  | .error _ => true

/-- The per-document loop of `main`: `step` is `process_pdf`, possibly
raising (`Except.error`).  Exceptions are caught at the document boundary:
the document gets an identifier-only row and is counted as failed, and the
loop continues with the remaining documents. -/
def runBatch (step : PdfDoc → Except Unit (PyDict × Bool)) (docs : List PdfDoc) :
    List PyDict × List String :=
  docs.foldl
    (fun acc d =>
      match step d with
      | .ok r => (acc.1 ++ [r.1], if r.2 then acc.2 else acc.2 ++ [d.1])
      | .error _ => (acc.1 ++ [errRow d.2], acc.2 ++ [d.1]))
    ([], [])

/-! ### The specification's candidate parser and merge engine

The specification (§4.4 Candidate Parser, §4.6 Scoring & Merge Engine,
§9 window widths 400/800) describes a windowed, multi-candidate
architecture.  The definitions below follow the specification's words, so
the claims about that architecture can be compared against the source's
actual behaviour; they are not translations of source code. -/

/-- A field triple (Cumulative, Interim, Interim2). -/
abbrev Triple := String × String × String

/-- A parse candidate: canonical field → field triple. -/
abbrev Candidate := List (String × Triple)

/-- Leftmost case-insensitive occurrence of any of the variants in the
flattened text, returning the position just after the matched variant
(spec §4.4: find the first occurrence of any of its variants). -/
def specFirstOcc (flat : String) (variants : List String) : Option Nat :=
  let low := pyLower flat
  let occs := variants.filterMap
    (fun v => (findSubIdxL (pyLower v).data low.data).map (fun i => (i, v.length)))
  (occs.foldl
    (fun acc p =>
      match acc with
      | none => some p
      | some q => if p.1 < q.1 then some p else some q)
    none).map (fun p => p.1 + p.2)

/-- Spec §4.4 `parse(text, window_chars)`: flatten the text to
single-line-equivalent spacing; for every canonical field locate the first
occurrence of any variant, then collect up to three canonicalized numeric
tokens from the next `window_chars` characters into
(Cumulative, Interim, Interim2). -/
def specParse (text : String) (window_chars : Nat) : Candidate :=
  let flat := squash text
  (LABELS_CA ++ LABELS_VENTES).map (fun p =>
    match specFirstOcc flat p.2 with
    | none => (p.1, ("", "", ""))
    | some e =>
      let win := (flat.data.drop e).take window_chars
      let nums := ((findAllF win.length win).map
        (fun tok => clean_num_tok (String.mk tok))).take 3
      (p.1, (nums.getD 0 "", nums.getD 1 "", nums.getD 2 "")))

/-- Completeness score of a candidate (§3): the number of non-empty,
numerically valid slots across all field triples. -/
def specScore (c : Candidate) : Nat :=
  (c.flatMap (fun p => [p.2.1, p.2.2.1, p.2.2.2])).countP (fun v => pyFloatOk v)

/-- The triple a candidate holds for one field (empty if absent). -/
def getTripleD (c : Candidate) (f : String) : Triple :=
  ((c.find? (fun p => p.1 = f)).map Prod.snd).getD ("", "", "")

/-- Spec §4.6 gap filling for one slot: copy the other candidate's value
only into an empty base slot. -/
def fillSlot (b o : String) : String := if b = "" ∧ o ≠ "" then o else b

def fillTriple (b o : Triple) : Triple :=
  (fillSlot b.1 o.1, fillSlot b.2.1 o.2.1, fillSlot b.2.2 o.2.2)

/-- Spec §4.6: back-fill every empty slot of the base from another
candidate, never overwriting a non-empty base value. -/
def specFill (base other : Candidate) : Candidate :=
  base.map (fun p => (p.1, fillTriple p.2 (getTripleD other p.1)))

/-- Spec §4.6: select the maximum-score candidate (ties broken by input
order, first seen wins) and back-fill it from the remaining candidates in
input order. -/
def specMergeCandidates (cs : List Candidate) : Candidate :=
  match (cs.enum.foldl
    (fun acc p =>
      match acc with
      | none => some p
      | some q => if specScore p.2 > specScore q.2 then some p else some q)
    none) with
  | none => []
  | some best =>
    ((cs.enum.filter (fun p => p.1 ≠ best.1)).map Prod.snd).foldl specFill best.2

/-- The spec's window widths (§9): narrow 400, wide 800 characters. -/
def specTwoWindowMerge (text : String) : Candidate :=
  specMergeCandidates [specParse text 400, specParse text 800]

/-- The line of filler text used to separate a label from its numbers in
the two-window counterexample. -/
def zline : String := String.mk (List.replicate 65 'z')

/-- A document text whose label (`Total`) is separated from its numbers by
about 460 characters of layout filler: a wide window (800 chars) reaches
the numbers, a narrow one (400 chars) and the source's 6-line span do not. -/
def c2Text : String :=
  "Total\n" ++ String.intercalate "\n" (List.replicate 7 zline) ++ "\n1 2 3"

/-! ### Dictionary lemmas -/

/-! ### Dictionary lemmas -/

theorem dictGet_nil (k : String) : dictGet [] k = none := rfl

theorem dictKeys_cons (a : String × String) (t : PyDict) :
    dictKeys (a :: t) = a.1 :: dictKeys t := rfl

theorem dictGet_cons (a : String × String) (t : PyDict) (k : String) :
    dictGet (a :: t) k = if a.1 = k then some a.2 else dictGet t k := by
  by_cases h : a.1 = k
  · simp [dictGet, List.find?, h]
  · simp [dictGet, List.find?, h]

theorem dictGet_eq_none_of_not_mem (d : PyDict) (k : String)
    (h : k ∉ dictKeys d) : dictGet d k = none := by
  induction d with
  | nil => rfl
  | cons a t ih =>
    rw [dictKeys_cons, List.mem_cons] at h
    push_neg at h
    rw [dictGet_cons, if_neg (fun hh => h.1 hh.symm), ih h.2]

theorem dictGet_dictSet (d : PyDict) (k v k' : String) :
    dictGet (dictSet d k v) k' = if k' = k then some v else dictGet d k' := by
  induction d with
  | nil =>
    rw [dictSet, dictGet_cons, dictGet_nil]
    by_cases hk : k' = k
    · simp [hk]
    · rw [if_neg (fun h => hk h.symm), if_neg hk]
  | cons a t ih =>
    rw [dictSet]
    by_cases hak : a.1 = k
    · rw [if_pos hak, dictGet_cons, dictGet_cons, hak]
      by_cases hk : k' = k
      · simp [hk]
      · rw [if_neg (fun h => hk h.symm), if_neg hk, if_neg (fun h => hk h.symm)]
    · rw [if_neg hak, dictGet_cons, dictGet_cons]
      by_cases hk : k' = k
      · subst hk
        rw [if_neg (fun h => hak h), ih, if_pos rfl, if_pos rfl]
      · rw [if_neg hk, ih, if_neg hk]

theorem dictKeys_dictSet (d : PyDict) (k v : String) :
    dictKeys (dictSet d k v) =
      if k ∈ dictKeys d then dictKeys d else dictKeys d ++ [k] := by
  induction d with
  | nil => simp [dictSet, dictKeys]
  | cons a t ih =>
    rw [dictSet]
    by_cases hak : a.1 = k
    · rw [if_pos hak, dictKeys_cons, dictKeys_cons,
        if_pos (by rw [hak]; exact List.mem_cons_self _ _)]
      rw [hak]
    · rw [if_neg hak, dictKeys_cons, dictKeys_cons, ih]
      by_cases hmem : k ∈ dictKeys t
      · rw [if_pos hmem, if_pos (List.mem_cons.mpr (Or.inr hmem))]
      · rw [if_neg hmem, if_neg (by
          intro h
          rcases List.mem_cons.mp h with h1 | h2
          · exact hak h1.symm
          · exact hmem h2)]
        rfl

theorem dictKeys_dictSet_nodup (d : PyDict) (k v : String)
    (h : (dictKeys d).Nodup) : (dictKeys (dictSet d k v)).Nodup := by
  rw [dictKeys_dictSet]
  by_cases hmem : k ∈ dictKeys d
  · simpa [hmem]
  · simp only [hmem, if_false]
    simp [List.nodup_append, h, hmem]

theorem dictGet_pyUpdate (d e : PyDict) (k : String)
    (he : (dictKeys e).Nodup) :
    dictGet (pyUpdate d e) k =
      match dictGet e k with
      | some v => some v
      | none => dictGet d k := by
  induction e generalizing d with
  | nil => rfl
  | cons a t ih =>
    have hstep : pyUpdate d (a :: t) = pyUpdate (dictSet d a.1 a.2) t := rfl
    rw [dictKeys_cons, List.nodup_cons] at he
    rw [hstep, ih _ he.2, dictGet_cons]
    by_cases hk : a.1 = k
    · subst hk
      rw [dictGet_eq_none_of_not_mem t a.1 he.1, dictGet_dictSet]
      simp
    · rw [if_neg hk, dictGet_dictSet, if_neg (fun h => hk h.symm)]

theorem dictKeys_pyUpdate_of_sub (d e : PyDict)
    (h : ∀ k ∈ dictKeys e, k ∈ dictKeys d) :
    dictKeys (pyUpdate d e) = dictKeys d := by
  induction e generalizing d with
  | nil => rfl
  | cons a t ih =>
    have hstep : pyUpdate d (a :: t) = pyUpdate (dictSet d a.1 a.2) t := rfl
    have hkeys : dictKeys (dictSet d a.1 a.2) = dictKeys d := by
      rw [dictKeys_dictSet,
        if_pos (h a.1 (by rw [dictKeys_cons]; exact List.mem_cons_self _ _))]
    rw [hstep, ih _ (by
      intro k hk
      rw [hkeys]
      exact h k (by rw [dictKeys_cons]; exact List.mem_cons.mpr (Or.inr hk)))]
    exact hkeys

theorem dictKeys_pyUpdate_structure (e d : PyDict) :
    ∃ extra, dictKeys (pyUpdate d e) = dictKeys d ++ extra ∧
      ∀ x ∈ extra, x ∈ dictKeys e := by
  induction e generalizing d with
  | nil => exact ⟨[], by simp [pyUpdate], by simp⟩
  | cons a t ih =>
    have hstep : pyUpdate d (a :: t) = pyUpdate (dictSet d a.1 a.2) t := rfl
    rw [hstep]
    obtain ⟨extra, hkeys, hsub⟩ := ih (dictSet d a.1 a.2)
    rw [dictKeys_dictSet] at hkeys
    by_cases hc : a.1 ∈ dictKeys d
    · rw [if_pos hc] at hkeys
      refine ⟨extra, hkeys, fun x hx => ?_⟩
      rw [dictKeys_cons]
      exact List.mem_cons.mpr (Or.inr (hsub x hx))
    · rw [if_neg hc] at hkeys
      refine ⟨a.1 :: extra, by rw [hkeys]; simp, ?_⟩
      intro x hx
      rw [dictKeys_cons]
      rcases List.mem_cons.mp hx with h1 | h2
      · exact List.mem_cons.mpr (Or.inl h1)
      · exact List.mem_cons.mpr (Or.inr (hsub x h2))

theorem dictKeys_pyUpdate_nodup (d e : PyDict)
    (h : (dictKeys d).Nodup) : (dictKeys (pyUpdate d e)).Nodup := by
  induction e generalizing d with
  | nil => exact h
  | cons a t ih =>
    exact ih (dictSet d a.1 a.2) (dictKeys_dictSet_nodup d a.1 a.2 h)

/-- Counting filtered entries of a key-distinct dictionary via its keys. -/
theorem filter_length_eq_countP_keys (d : PyDict) (q : String → Bool)
    (r : String → Bool) (hd : (dictKeys d).Nodup) :
    (d.filter (fun p => q p.1 && r p.2)).length =
      (dictKeys d).countP (fun k => q k && r (dictGetD d k)) := by
  induction d with
  | nil => rfl
  | cons a t ih =>
    rw [dictKeys_cons, List.nodup_cons] at hd
    have hda : dictGetD (a :: t) a.1 = a.2 := by
      simp [dictGetD, dictGet_cons]
    have hcong : ∀ k ∈ dictKeys t,
        (q k && r (dictGetD (a :: t) k)) = true ↔
          (q k && r (dictGetD t k)) = true := by
      intro k hk
      have hak : a.1 ≠ k := fun h => hd.1 (h ▸ hk)
      simp [dictGetD, dictGet_cons, if_neg hak]
    rw [List.filter_cons, dictKeys_cons, List.countP_cons,
      List.countP_congr hcong]
    by_cases hq : (q a.1 && r a.2) = true
    · have h2 : (q a.1 && r (dictGetD (a :: t) a.1)) = true := by
        rw [hda]; exact hq
      simp only [hq, if_true, h2, List.length_cons]
      rw [ih hd.2]
    · have h2 : (q a.1 && r (dictGetD (a :: t) a.1)) = false := by
        rw [hda]; simpa using hq
      simp only [hq, Bool.false_eq_true, if_false, h2]
      rw [ih hd.2]
      simp

/-! ### Parser lemmas -/

/-- The three slot suffixes of a canonical field. -/
def slotSuffixes : List String := ["_Cumul", "_Interim", "_Interim2"]

/-- All canonical field names. -/
def allCanons : List String := canonNames true ++ canonNames false

/-- The triple stored for one canonical field in a parse dictionary. -/
def tripleOf (d : PyDict) (f : String) : Triple :=
  (dictGetD d (f ++ "_Cumul"), dictGetD d (f ++ "_Interim"),
    dictGetD d (f ++ "_Interim2"))

theorem canonical_from_line_mem (ln : String) (g : Bool) (c : String)
    (h : canonical_from_line ln g = some c) : c ∈ canonNames g := by
  cases g
  · have hidx : ∀ p ∈ IDX_V, p.2 ∈ canonNames false := by decide
    simp only [canonical_from_line, Bool.false_eq_true, if_false] at h
    split at h
    · next p hp =>
      injection h with h
      subst h
      exact hidx p (List.mem_of_find?_eq_some hp)
    · split at h <;> try (injection h with h; subst h; decide)
      split at h <;> try (injection h with h; subst h; decide)
      split at h <;> try (injection h with h; subst h; decide)
      split at h <;> try (injection h with h; subst h; decide)
      split at h <;> try (injection h with h; subst h; decide)
      split at h
      · injection h with h
        subst h
        decide
      · exact absurd h (by simp)
  · have hidx : ∀ p ∈ IDX_CA, p.2 ∈ canonNames true := by decide
    simp only [canonical_from_line, if_true] at h
    split at h
    · next p hp =>
      injection h with h
      subst h
      exact hidx p (List.mem_of_find?_eq_some hp)
    · split at h <;> try (injection h with h; subst h; decide)
      split at h <;> try (injection h with h; subst h; decide)
      split at h <;> try (injection h with h; subst h; decide)
      split at h <;> try (injection h with h; subst h; decide)
      split at h <;> try (injection h with h; subst h; decide)
      split at h
      · injection h with h
        subst h
        decide
      · exact absurd h (by simp)

/-- Distinct (canonical name, suffix) pairs give distinct slot keys. -/
theorem canon_key_injective :
    ∀ c1 ∈ allCanons, ∀ s1 ∈ slotSuffixes, ∀ c2 ∈ allCanons,
      ∀ s2 ∈ slotSuffixes, c1 ++ s1 = c2 ++ s2 → c1 = c2 ∧ s1 = s2 := by
  decide

theorem canonNames_disjoint : ∀ c ∈ canonNames true, c ∉ canonNames false := by
  decide

theorem feedStep_get_other (g : Bool) (L : List String) (hdr : Option Nat)
    (out : PyDict) (p : Nat × String) (k : String)
    (h : ∀ c, canonical_from_line p.2 g = some c →
      ∀ s ∈ slotSuffixes, c ++ s ≠ k) :
    dictGet (feedStep g L hdr out p) k = dictGet out k := by
  unfold feedStep
  split
  · rfl
  · next c hc =>
    rw [dictGet_dictSet, dictGet_dictSet, dictGet_dictSet,
      if_neg (fun hk => h c hc "_Interim2" (by decide) hk.symm),
      if_neg (fun hk => h c hc "_Interim" (by decide) hk.symm),
      if_neg (fun hk => h c hc "_Cumul" (by decide) hk.symm)]

theorem feedGo_get_notouched (g : Bool) (L : List String) (hdr : Option Nat)
    (l : List String) (k : String) :
    ∀ (i : Nat) (out : PyDict),
      (∀ ln ∈ l, ∀ c, canonical_from_line ln g = some c →
        ∀ s ∈ slotSuffixes, c ++ s ≠ k) →
      dictGet (feedGo g L hdr i l out) k = dictGet out k := by
  induction l with
  | nil => intro i out _; rfl
  | cons ln rest ih =>
    intro i out h
    rw [feedGo, ih _ _ (fun ln2 h2 => h ln2 (List.mem_cons.mpr (Or.inr h2))),
      feedStep_get_other _ _ _ _ _ _ (h ln (List.mem_cons_self _ _))]

theorem feedStep_get_match (g : Bool) (L : List String) (hdr : Option Nat)
    (out : PyDict) (p : Nat × String) (f : String)
    (hf : f ∈ allCanons)
    (hc : canonical_from_line p.2 g = some f) :
    (dictGet (feedStep g L hdr out p) (f ++ "_Cumul") =
      some ((parse_numbers_from_near L
        (match hdr with | none => p.1 | some h => max p.1 h) 6).getD 0 "")) ∧
    (dictGet (feedStep g L hdr out p) (f ++ "_Interim") =
      some ((parse_numbers_from_near L
        (match hdr with | none => p.1 | some h => max p.1 h) 6).getD 1 "")) ∧
    (dictGet (feedStep g L hdr out p) (f ++ "_Interim2") =
      some ((parse_numbers_from_near L
        (match hdr with | none => p.1 | some h => max p.1 h) 6).getD 2 "")) := by
  have hne : ∀ s1 ∈ slotSuffixes, ∀ s2 ∈ slotSuffixes, s1 ≠ s2 →
      f ++ s1 ≠ f ++ s2 := by
    intro s1 h1 s2 h2 hs hk
    exact hs (canon_key_injective f hf s1 h1 f hf s2 h2 hk).2
  unfold feedStep
  rw [hc]
  refine ⟨?_, ?_, ?_⟩
  · rw [dictGet_dictSet,
      if_neg (hne "_Cumul" (by decide) "_Interim2" (by decide) (by decide)),
      dictGet_dictSet,
      if_neg (hne "_Cumul" (by decide) "_Interim" (by decide) (by decide)),
      dictGet_dictSet, if_pos rfl]
  · rw [dictGet_dictSet,
      if_neg (hne "_Interim" (by decide) "_Interim2" (by decide) (by decide)),
      dictGet_dictSet, if_pos rfl]
  · rw [dictGet_dictSet, if_pos rfl]

theorem canonNames_disjoint_rev : ∀ c ∈ canonNames false, c ∉ canonNames true := by
  decide

theorem feedGo_get_unique (g : Bool) (L : List String) (hdr : Option Nat)
    (f : String) (hf : f ∈ canonNames g) :
    ∀ (l : List String) (j : Nat) (hj : j < l.length) (i : Nat) (out : PyDict),
      canonical_from_line (l.get ⟨j, hj⟩) g = some f →
      (∀ j2 (h2 : j2 < l.length), j2 ≠ j →
        canonical_from_line (l.get ⟨j2, h2⟩) g ≠ some f) →
      (dictGet (feedGo g L hdr i l out) (f ++ "_Cumul") =
        some ((parse_numbers_from_near L
          (match hdr with | none => i + j | some h => max (i + j) h) 6).getD 0 "")) ∧
      (dictGet (feedGo g L hdr i l out) (f ++ "_Interim") =
        some ((parse_numbers_from_near L
          (match hdr with | none => i + j | some h => max (i + j) h) 6).getD 1 "")) ∧
      (dictGet (feedGo g L hdr i l out) (f ++ "_Interim2") =
        some ((parse_numbers_from_near L
          (match hdr with | none => i + j | some h => max (i + j) h) 6).getD 2 "")) := by
  have hfAll : f ∈ allCanons := by
    cases g
    · exact List.mem_append.mpr (Or.inr hf)
    · exact List.mem_append.mpr (Or.inl hf)
  intro l
  induction l with
  | nil =>
    intro j hj
    exact absurd hj (Nat.not_lt_zero j)
  | cons ln rest ih =>
    intro j hj i out hmatch huniq
    cases j with
    | zero =>
      have hln : canonical_from_line ln g = some f := hmatch
      have hnorest : ∀ ln2 ∈ rest, ∀ c, canonical_from_line ln2 g = some c →
          ∀ s ∈ slotSuffixes, ∀ s0 ∈ slotSuffixes, c ++ s ≠ f ++ s0 := by
        intro ln2 h2 c hc s hs s0 hs0 heq
        obtain ⟨⟨j2, hj2⟩, hget⟩ := List.mem_iff_get.mp h2
        have hcf : c = f :=
          (canon_key_injective c
            (List.mem_append.mpr (by
              cases g
              · exact Or.inr (canonical_from_line_mem ln2 false c hc)
              · exact Or.inl (canonical_from_line_mem ln2 true c hc)))
            s hs f hfAll s0 hs0 heq).1
        subst hcf
        exact huniq (j2 + 1) (Nat.succ_lt_succ hj2) (Nat.succ_ne_zero j2)
          (by rw [List.get_cons_succ, hget]; exact hc)
      rw [feedGo]
      have hstep := feedStep_get_match g L hdr out (i, ln) f hfAll hln
      simp only [Nat.add_zero]
      refine ⟨?_, ?_, ?_⟩
      · rw [feedGo_get_notouched g L hdr rest _ _ _
          (fun ln2 h2 c hc s hs => hnorest ln2 h2 c hc s hs "_Cumul" (by decide))]
        exact hstep.1
      · rw [feedGo_get_notouched g L hdr rest _ _ _
          (fun ln2 h2 c hc s hs => hnorest ln2 h2 c hc s hs "_Interim" (by decide))]
        exact hstep.2.1
      · rw [feedGo_get_notouched g L hdr rest _ _ _
          (fun ln2 h2 c hc s hs => hnorest ln2 h2 c hc s hs "_Interim2" (by decide))]
        exact hstep.2.2
    | succ j2 =>
      have hj2 : j2 < rest.length := Nat.lt_of_succ_lt_succ hj
      have heqidx : i + (j2 + 1) = (i + 1) + j2 := by omega
      rw [feedGo, heqidx]
      exact ih j2 hj2 (i + 1) (feedStep g L hdr out (i, ln))
        (by rw [← List.get_cons_succ (a := ln) (h := hj)]; exact hmatch)
        (fun j3 h3 hne =>
          huniq (j3 + 1) (Nat.succ_lt_succ h3)
            (fun hcontra => hne (Nat.succ_injective hcontra)))

/-- The parse result never touches keys outside the canonical slot keys. -/
theorem feedGo_keys_shape (g : Bool) (L : List String) (hdr : Option Nat) :
    ∀ (l : List String) (i : Nat) (out : PyDict) (k : String),
      k ∈ dictKeys (feedGo g L hdr i l out) →
      k ∈ dictKeys out ∨
        ∃ c ∈ canonNames g, ∃ s ∈ slotSuffixes, k = c ++ s := by
  intro l
  induction l with
  | nil => intro i out k hk; exact Or.inl hk
  | cons ln rest ih =>
    intro i out k hk
    rw [feedGo] at hk
    rcases ih (i + 1) _ k hk with h1 | h2
    · -- came through the step
      unfold feedStep at h1
      revert h1
      split
      · exact Or.inl
      · next c hc =>
        intro h1
        rw [dictKeys_dictSet] at h1
        have hcmem := canonical_from_line_mem ln g c hc
        split at h1
        · rw [dictKeys_dictSet] at h1
          split at h1
          · rw [dictKeys_dictSet] at h1
            split at h1
            · exact Or.inl h1
            · rcases List.mem_append.mp h1 with h3 | h3
              · exact Or.inl h3
              · exact Or.inr ⟨c, hcmem, "_Cumul", by decide, by
                  simpa using h3⟩
          · rcases List.mem_append.mp h1 with h3 | h3
            · rw [dictKeys_dictSet] at h3
              split at h3
              · exact Or.inl h3
              · rcases List.mem_append.mp h3 with h4 | h4
                · exact Or.inl h4
                · exact Or.inr ⟨c, hcmem, "_Cumul", by decide, by simpa using h4⟩
            · exact Or.inr ⟨c, hcmem, "_Interim", by decide, by simpa using h3⟩
        · rcases List.mem_append.mp h1 with h3 | h3
          · rw [dictKeys_dictSet] at h3
            split at h3
            · rw [dictKeys_dictSet] at h3
              split at h3
              · exact Or.inl h3
              · rcases List.mem_append.mp h3 with h4 | h4
                · exact Or.inl h4
                · exact Or.inr ⟨c, hcmem, "_Cumul", by decide, by simpa using h4⟩
            · rcases List.mem_append.mp h3 with h4 | h4
              · rw [dictKeys_dictSet] at h4
                split at h4
                · exact Or.inl h4
                · rcases List.mem_append.mp h4 with h5 | h5
                  · exact Or.inl h5
                  · exact Or.inr ⟨c, hcmem, "_Cumul", by decide, by simpa using h5⟩
              · exact Or.inr ⟨c, hcmem, "_Interim", by decide, by simpa using h4⟩
          · exact Or.inr ⟨c, hcmem, "_Interim2", by decide, by simpa using h3⟩
    · exact Or.inr h2

theorem parse_keys_shape (text : String) (k : String)
    (hk : k ∈ dictKeys (parse_blocks_adaptive text)) :
    ∃ c ∈ allCanons, ∃ s ∈ slotSuffixes, k = c ++ s := by
  unfold parse_blocks_adaptive at hk
  rcases feedGo_keys_shape false _ _ _ _ _ _ hk with h1 | h2
  · rcases feedGo_keys_shape true _ _ _ _ _ _ h1 with h3 | h4
    · simp [dictKeys] at h3
    · obtain ⟨c, hc, s, hs, hk⟩ := h4
      exact ⟨c, List.mem_append.mpr (Or.inl hc), s, hs, hk⟩
  · obtain ⟨c, hc, s, hs, hk⟩ := h2
    exact ⟨c, List.mem_append.mpr (Or.inr hc), s, hs, hk⟩

theorem feedGo_nodup (g : Bool) (L : List String) (hdr : Option Nat) :
    ∀ (l : List String) (i : Nat) (out : PyDict),
      (dictKeys out).Nodup → (dictKeys (feedGo g L hdr i l out)).Nodup := by
  intro l
  induction l with
  | nil => intro i out h; exact h
  | cons ln rest ih =>
    intro i out h
    rw [feedGo]
    apply ih
    unfold feedStep
    split
    · exact h
    · exact dictKeys_dictSet_nodup _ _ _
        (dictKeys_dictSet_nodup _ _ _ (dictKeys_dictSet_nodup _ _ _ h))

theorem parse_keys_nodup (text : String) :
    (dictKeys (parse_blocks_adaptive text)).Nodup := by
  unfold parse_blocks_adaptive
  exact feedGo_nodup false _ _ _ _ _
    (feedGo_nodup true _ _ _ _ _ (by simp [dictKeys]))

/-- If no line of the text is classified to a canonical field, that field's
triple in the parse result is fully empty. -/
theorem parse_tripleOf_none (g : Bool) (f : String) (text : String)
    (hf : f ∈ canonNames g)
    (h : ∀ ln ∈ linesNorm text, canonical_from_line ln g ≠ some f) :
    tripleOf (parse_blocks_adaptive text) f = ("", "", "") := by
  have hfAll : f ∈ allCanons := by
    cases g
    · exact List.mem_append.mpr (Or.inr hf)
    · exact List.mem_append.mpr (Or.inl hf)
  have hnotouch : ∀ (g2 : Bool), (∀ ln ∈ linesNorm text,
      canonical_from_line ln g2 ≠ some f) →
      ∀ s ∈ slotSuffixes, ∀ ln ∈ linesNorm text, ∀ c,
        canonical_from_line ln g2 = some c →
        ∀ s2 ∈ slotSuffixes, c ++ s2 ≠ f ++ s := by
    intro g2 hg2 s hs ln hln c hc s2 hs2 heq
    have hcAll : c ∈ allCanons := by
      cases g2
      · exact List.mem_append.mpr (Or.inr (canonical_from_line_mem ln false c hc))
      · exact List.mem_append.mpr (Or.inl (canonical_from_line_mem ln true c hc))
    have hcf : c = f := (canon_key_injective c hcAll s2 hs2 f hfAll s hs heq).1
    subst hcf
    exact hg2 ln hln hc
  have hother : ∀ ln ∈ linesNorm text,
      canonical_from_line ln (!g) ≠ some f := by
    intro ln hln hc
    have := canonical_from_line_mem ln (!g) f hc
    cases g
    · exact canonNames_disjoint f (by simpa using this) hf
    · exact canonNames_disjoint_rev f (by simpa using this) hf
  have hget : ∀ s ∈ slotSuffixes,
      dictGet (parse_blocks_adaptive text) (f ++ s) = none := by
    intro s hs
    unfold parse_blocks_adaptive feedSection
    cases g
    · rw [feedGo_get_notouched false _ _ _ _ _ _
        (fun ln hln c hc s2 hs2 => hnotouch false h s hs ln hln c hc s2 hs2)]
      rw [feedGo_get_notouched true _ _ _ _ _ _
        (fun ln hln c hc s2 hs2 =>
          hnotouch true (by simpa using hother) s hs ln hln c hc s2 hs2)]
      rfl
    · rw [feedGo_get_notouched false _ _ _ _ _ _
        (fun ln hln c hc s2 hs2 =>
          hnotouch false (by simpa using hother) s hs ln hln c hc s2 hs2)]
      rw [feedGo_get_notouched true _ _ _ _ _ _
        (fun ln hln c hc s2 hs2 => hnotouch true h s hs ln hln c hc s2 hs2)]
      rfl
  unfold tripleOf dictGetD
  rw [hget "_Cumul" (by decide), hget "_Interim" (by decide),
    hget "_Interim2" (by decide)]
  rfl

/-- If exactly one line of the text is classified to a canonical field and
no column-header line exists, the field's triple holds the up-to-three
numbers found near that line. -/
theorem parse_tripleOf_unique (g : Bool) (f : String) (text : String)
    (hf : f ∈ canonNames g)
    (hhdr : find_col_header_positions (linesNorm text) = none)
    (j : Nat) (hj : j < (linesNorm text).length)
    (hmatch : canonical_from_line ((linesNorm text).get ⟨j, hj⟩) g = some f)
    (huniq : ∀ j2 (h2 : j2 < (linesNorm text).length), j2 ≠ j →
      canonical_from_line ((linesNorm text).get ⟨j2, h2⟩) g ≠ some f) :
    tripleOf (parse_blocks_adaptive text) f =
      ((parse_numbers_from_near (linesNorm text) j 6).getD 0 "",
       (parse_numbers_from_near (linesNorm text) j 6).getD 1 "",
       (parse_numbers_from_near (linesNorm text) j 6).getD 2 "") := by
  have hfAll : f ∈ allCanons := by
    cases g
    · exact List.mem_append.mpr (Or.inr hf)
    · exact List.mem_append.mpr (Or.inl hf)
  have hother : ∀ ln ∈ linesNorm text,
      canonical_from_line ln (!g) ≠ some f := by
    intro ln hln hc
    have := canonical_from_line_mem ln (!g) f hc
    cases g
    · exact canonNames_disjoint f (by simpa using this) hf
    · exact canonNames_disjoint_rev f (by simpa using this) hf
  cases g
  · -- sales group: the outer feed writes the triple
    have hres := feedGo_get_unique false (linesNorm text)
      (find_col_header_positions (linesNorm text)) f hf (linesNorm text) j hj 0
      (feedSection true (linesNorm text)
        (find_col_header_positions (linesNorm text)) []) hmatch huniq
    rw [hhdr] at hres
    simp only [Nat.zero_add] at hres
    unfold feedSection at hres
    simp only [parse_blocks_adaptive, feedSection]
    rw [hhdr]
    unfold tripleOf dictGetD
    rw [hres.1, hres.2.1, hres.2.2]
    rfl
  · -- turnover group: the outer (sales) feed leaves the triple untouched
    have hnotouch : ∀ s ∈ slotSuffixes, ∀ ln ∈ linesNorm text, ∀ c,
        canonical_from_line ln false = some c →
        ∀ s2 ∈ slotSuffixes, c ++ s2 ≠ f ++ s := by
      intro s hs ln hln c hc s2 hs2 heq
      have hcAll : c ∈ allCanons :=
        List.mem_append.mpr (Or.inr (canonical_from_line_mem ln false c hc))
      have hcf : c = f := (canon_key_injective c hcAll s2 hs2 f hfAll s hs heq).1
      subst hcf
      exact hother ln hln (by simpa using hc)
    have hres := feedGo_get_unique true (linesNorm text)
      (find_col_header_positions (linesNorm text)) f hf (linesNorm text) j hj 0
      [] hmatch huniq
    rw [hhdr] at hres
    simp only [Nat.zero_add] at hres
    simp only [parse_blocks_adaptive, feedSection]
    rw [hhdr]
    unfold tripleOf dictGetD
    rw [feedGo_get_notouched false _ _ _ _ _ _
        (fun ln hln c hc s2 hs2 => hnotouch "_Cumul" (by decide) ln hln c hc s2 hs2),
      feedGo_get_notouched false _ _ _ _ _ _
        (fun ln hln c hc s2 hs2 => hnotouch "_Interim" (by decide) ln hln c hc s2 hs2),
      feedGo_get_notouched false _ _ _ _ _ _
        (fun ln hln c hc s2 hs2 => hnotouch "_Interim2" (by decide) ln hln c hc s2 hs2)]
    rw [hres.1, hres.2.1, hres.2.2]
    rfl

/-! ### Record-assembly lemmas -/

theorem foldl_dictSet_nodup {α : Type} (f : α → String) (g : α → String) :
    ∀ (ps : List α) (acc : PyDict), (dictKeys acc).Nodup →
      (dictKeys (ps.foldl (fun d p => dictSet d (f p) (g p)) acc)).Nodup := by
  intro ps
  induction ps with
  | nil => intro acc h; exact h
  | cons p rest ih =>
    intro acc h
    exact ih _ (dictKeys_dictSet_nodup _ _ _ h)

theorem foldl_dictSet_keys_shape {α : Type} (f : α → String) (g : α → String)
    (P : String → Prop) (hP : ∀ p, P (f p)) :
    ∀ (ps : List α) (acc : PyDict), (∀ k ∈ dictKeys acc, P k) →
      ∀ k ∈ dictKeys (ps.foldl (fun d p => dictSet d (f p) (g p)) acc), P k := by
  intro ps
  induction ps with
  | nil => intro acc h; exact h
  | cons p rest ih =>
    intro acc h
    apply ih
    intro k hk
    rw [dictKeys_dictSet] at hk
    by_cases hc : f p ∈ dictKeys acc
    · rw [if_pos hc] at hk
      exact h k hk
    · rw [if_neg hc] at hk
      rcases List.mem_append.mp hk with h1 | h2
      · exact h k h1
      · rw [List.mem_singleton.mp h2]
        exact hP p

/-- Shape of the keys produced by `extract_codes_and_key`. -/
theorem codes_keys_shape (text : String) (k : String)
    (hk : k ∈ dictKeys (extract_codes_and_key text)) :
    pyStartsWith "Code gratuit " k = true ∨ k = "key 1" := by
  have hpref : ∀ x : String,
      pyStartsWith "Code gratuit " ("Code gratuit " ++ x) = true := by
    intro x
    have hdata : ("Code gratuit " ++ x).data = "Code gratuit ".data ++ x.data :=
      rfl
    rw [pyStartsWith, hdata, List.isPrefixOf_iff_prefix]
    exact List.prefix_append _ _
  have hbase := foldl_dictSet_keys_shape
    (fun p : List Char × List Char => "Code gratuit " ++ String.mk p.1)
    (fun p => String.mk p.2)
    (fun s => pyStartsWith "Code gratuit " s = true)
    (fun p => hpref (String.mk p.1))
    (findAllCodesF (collapseAllWS text).data.length (collapseAllWS text).data)
    [] (by simp [dictKeys])
  simp only [extract_codes_and_key] at hk
  split at hk
  · rw [dictKeys_dictSet] at hk
    by_cases hc : "key 1" ∈ dictKeys ((findAllCodesF
        (collapseAllWS text).data.length (collapseAllWS text).data).foldl
        (fun d p => dictSet d ("Code gratuit " ++ String.mk p.1) (String.mk p.2)) [])
    · rw [if_pos hc] at hk
      exact Or.inl (hbase k hk)
    · rw [if_neg hc] at hk
      rcases List.mem_append.mp hk with h1 | h2
      · exact Or.inl (hbase k h1)
      · exact Or.inr (List.mem_singleton.mp h2)
  · exact Or.inl (hbase k hk)

theorem codes_keys_nodup (text : String) :
    (dictKeys (extract_codes_and_key text)).Nodup := by
  simp only [extract_codes_and_key]
  split
  · exact dictKeys_dictSet_nodup _ _ _ (foldl_dictSet_nodup _ _ _ _ (by simp [dictKeys]))
  · exact foldl_dictSet_nodup _ _ _ _ (by simp [dictKeys])

/-- A slot key (prefix `CA ` or `Vente `) is never a codes key. -/
theorem slot_key_ne_code_key (k : String)
    (hq : (pyStartsWith "CA " k || pyStartsWith "Vente " k) = true)
    (hP : pyStartsWith "Code gratuit " k = true ∨ k = "key 1") : False := by
  rcases hP with hP | hP
  · rw [pyStartsWith, List.isPrefixOf_iff_prefix] at hP
    obtain ⟨t2, ht2⟩ := hP
    rcases Bool.or_eq_true _ _ |>.mp hq with h1 | h1
    · rw [pyStartsWith, List.isPrefixOf_iff_prefix] at h1
      obtain ⟨t1, ht1⟩ := h1
      rw [← ht1] at ht2
      injection ht2 with h3 h4
      injection h4 with h5 h6
      exact absurd h5 (by decide)
    · rw [pyStartsWith, List.isPrefixOf_iff_prefix] at h1
      obtain ⟨t1, ht1⟩ := h1
      rw [← ht1] at ht2
      injection ht2 with h3 h4
      exact absurd h3 (by decide)
  · subst hP
    simp [pyStartsWith, List.isPrefixOf] at hq

/-- A slot key is never one of the metadata keys. -/
theorem slot_key_ne_meta (k : String) (text : String)
    (hq : (pyStartsWith "CA " k || pyStartsWith "Vente " k) = true) :
    k ∉ dictKeys (parse_header text) := by
  intro hk
  have heq : dictKeys (parse_header text) = ["id", "date", "Numéro de relevé"] :=
    rfl
  rw [heq] at hk
  simp only [List.mem_cons, List.mem_singleton, List.not_mem_nil, or_false] at hk
  rcases hk with h | h | h
  · subst h; simp [pyStartsWith, List.isPrefixOf] at hq
  · subst h; simp [pyStartsWith, List.isPrefixOf] at hq
  · subst h; simp [pyStartsWith, List.isPrefixOf] at hq

theorem mapBlank_get {ks : List String} {k : String} (h : k ∈ ks) :
    dictGet (ks.map (fun k2 => (k2, ""))) k = some "" := by
  induction ks with
  | nil => exact absurd h (List.not_mem_nil k)
  | cons a t ih =>
    rw [List.map_cons, dictGet_cons]
    by_cases hak : a = k
    · simp [hak]
    · rcases List.mem_cons.mp h with h1 | h2
      · exact absurd h1.symm hak
      · simp only [hak, if_false]
        exact ih h2

/-- Before the numeric update, every CA/Vente slot of the record is
empty. -/
theorem rowAfterMeta_slot_empty (text : String) (k : String)
    (hq : (pyStartsWith "CA " k || pyStartsWith "Vente " k) = true)
    (hmem : k ∈ HEADERS) :
    dictGet (rowAfterMeta text) k = some "" := by
  unfold rowAfterMeta
  rw [dictGet_pyUpdate _ _ _ (codes_keys_nodup text)]
  have hcodes : dictGet (extract_codes_and_key text) k = none := by
    apply dictGet_eq_none_of_not_mem
    intro hk
    exact slot_key_ne_code_key k hq (codes_keys_shape text k hk)
  rw [hcodes]
  rw [dictGet_pyUpdate _ _ _ (by
    rw [show dictKeys (parse_header text) = ["id", "date", "Numéro de relevé"]
      from rfl]
    decide)]
  have hph : dictGet (parse_header text) k = none :=
    dictGet_eq_none_of_not_mem _ _ (slot_key_ne_meta k text hq)
  rw [hph]
  exact mapBlank_get hmem

/-- Every key of the parse result is a canonical slot key, hence a schema
column with a CA/Vente prefix. -/
theorem parse_keys_in_slotKeys (text : String) (k : String)
    (hk : k ∈ dictKeys (parse_blocks_adaptive text)) : k ∈ slotKeys := by
  obtain ⟨c, hc, s, hs, hk2⟩ := parse_keys_shape text k hk
  subst hk2
  have hall : ∀ c2 ∈ allCanons, ∀ s2 ∈ slotSuffixes, (c2 ++ s2) ∈ slotKeys := by
    decide
  exact hall c hc s hs

/-- The final record looks up every slot key to the parse result's value
(or empty if the parse result lacks it). -/
theorem processRow_slot (stem raw : String) (k : String)
    (hk : k ∈ slotKeys) (hok : strip_ok (norm_spaces_keep_lines raw) = true) :
    dictGetD (process_pdf stem raw).1 k =
      dictGetD (parse_blocks_adaptive (norm_spaces_keep_lines raw)) k := by
  simp only [process_pdf, hok, Bool.not_true, Bool.false_eq_true, if_false]
  unfold dictGetD
  rw [dictGet_pyUpdate _ _ _ (parse_keys_nodup _)]
  have hmf := List.mem_filter.mp (show k ∈ HEADERS.filter
    (fun k2 => pyStartsWith "CA " k2 || pyStartsWith "Vente " k2) from hk)
  have hq : (pyStartsWith "CA " k || pyStartsWith "Vente " k) = true := hmf.2
  have hmem : k ∈ HEADERS := hmf.1
  cases hg : dictGet (parse_blocks_adaptive (norm_spaces_keep_lines raw)) k with
  | some v => rfl
  | none =>
    rw [show (match (none : Option String) with
      | some v => some v
      | none => dictGet (rowAfterMeta (norm_spaces_keep_lines raw)) k) =
        dictGet (rowAfterMeta (norm_spaces_keep_lines raw)) k from rfl,
      rowAfterMeta_slot_empty _ k hq hmem]
    rfl

theorem flatMap_map_clean (l : List String) :
    l.flatMap (fun ln => (findallNum ln).map clean_num_tok) =
      (l.flatMap findallNum).map clean_num_tok := by
  induction l with
  | nil => rfl
  | cons a t ih =>
    rw [List.flatMap_cons, List.flatMap_cons, List.map_append, ih]

theorem row0_keys : dictKeys row0 = HEADERS := by decide

theorem meta_struct (text : String) :
    ∃ extra, dictKeys (rowAfterMeta text) = HEADERS ++ extra ∧
      ∀ x ∈ extra,
        (pyStartsWith "CA " x || pyStartsWith "Vente " x) = false := by
  unfold rowAfterMeta
  obtain ⟨extra, hkeys, hsub⟩ := dictKeys_pyUpdate_structure
    (extract_codes_and_key text) (pyUpdate row0 (parse_header text))
  have hbase : dictKeys (pyUpdate row0 (parse_header text)) = HEADERS := by
    rw [dictKeys_pyUpdate_of_sub, row0_keys]
    intro k hk
    rw [show dictKeys (parse_header text) = ["id", "date", "Numéro de relevé"]
      from rfl] at hk
    rw [row0_keys]
    revert k hk
    decide
  refine ⟨extra, by rw [hkeys, hbase], ?_⟩
  intro x hx
  cases hpred : (pyStartsWith "CA " x || pyStartsWith "Vente " x) with
  | false => rfl
  | true =>
    exact (slot_key_ne_code_key x hpred
      (codes_keys_shape text x (hsub x hx))).elim

theorem rowFinal_struct (text : String) :
    ∃ extra, dictKeys (pyUpdate (rowAfterMeta text)
      (parse_blocks_adaptive text)) = HEADERS ++ extra ∧
      ∀ x ∈ extra,
        (pyStartsWith "CA " x || pyStartsWith "Vente " x) = false := by
  obtain ⟨extra, hmeta, hextra⟩ := meta_struct text
  have hkeys : dictKeys (pyUpdate (rowAfterMeta text)
      (parse_blocks_adaptive text)) = dictKeys (rowAfterMeta text) := by
    apply dictKeys_pyUpdate_of_sub
    intro k hk
    rw [hmeta]
    exact List.mem_append.mpr (Or.inl (List.mem_of_mem_filter
      (show k ∈ HEADERS.filter _ from parse_keys_in_slotKeys text k hk)))
  exact ⟨extra, by rw [hkeys, hmeta], hextra⟩

theorem rowFinal_nodup (text : String) :
    (dictKeys (pyUpdate (rowAfterMeta text)
      (parse_blocks_adaptive text))).Nodup := by
  apply dictKeys_pyUpdate_nodup
  unfold rowAfterMeta
  apply dictKeys_pyUpdate_nodup
  apply dictKeys_pyUpdate_nodup
  rw [row0_keys]
  decide

/-- The code's completeness score counts exactly the 36 schema slots. -/
theorem numeric_count_eq (row : PyDict) (hnodup : (dictKeys row).Nodup)
    (hstruct : ∃ extra, dictKeys row = HEADERS ++ extra ∧
      ∀ x ∈ extra,
        (pyStartsWith "CA " x || pyStartsWith "Vente " x) = false) :
    numeric_count row =
      slotKeys.countP (fun k => pyFloatOk (dictGetD row k)) := by
  obtain ⟨extra, hkeys, hextra⟩ := hstruct
  unfold numeric_count
  rw [filter_length_eq_countP_keys row
    (fun k => pyStartsWith "CA " k || pyStartsWith "Vente " k) pyFloatOk
    hnodup, hkeys, List.countP_append]
  have hz : extra.countP (fun k =>
      (pyStartsWith "CA " k || pyStartsWith "Vente " k) &&
        pyFloatOk (dictGetD row k)) = 0 := by
    rw [List.countP_eq_zero]
    intro k hkx
    simp [hextra k hkx]
  rw [hz, Nat.add_zero,
    show slotKeys = HEADERS.filter
      (fun k => pyStartsWith "CA " k || pyStartsWith "Vente " k) from rfl,
    List.countP_filter]
  apply List.countP_congr
  intro k _
  constructor
  · intro h
    rw [Bool.and_comm]
    exact h
  · intro h
    rw [Bool.and_comm]
    exact h

theorem blankRow_keys (stem : String) :
    dictKeys (dictSet row0 "id" stem) = HEADERS := by
  rw [dictKeys_dictSet, row0_keys, if_pos (by decide)]

theorem blankRow_slot (stem : String) (k : String) (hk : k ∈ slotKeys) :
    dictGetD (dictSet row0 "id" stem) k = "" := by
  unfold dictGetD
  rw [dictGet_dictSet, if_neg (by
    intro h
    subst h
    revert hk
    decide)]
  have hget : dictGet row0 k = some "" :=
    mapBlank_get (List.mem_of_mem_filter (show k ∈ HEADERS.filter _ from hk))
  rw [hget]
  rfl

/-! ### Batch-loop lemmas -/

theorem runBatch_characterization
    (step : PdfDoc → Except Unit (PyDict × Bool)) :
    ∀ (docs : List PdfDoc) (r0 : List PyDict) (f0 : List String),
      docs.foldl
        (fun acc d =>
          match step d with
          | .ok r => (acc.1 ++ [r.1], if r.2 then acc.2 else acc.2 ++ [d.1])
          | .error _ => (acc.1 ++ [errRow d.2], acc.2 ++ [d.1]))
        (r0, f0) =
      (r0 ++ docs.map (rowOfStep step),
        f0 ++ (docs.filter (fun d => failedOfStep step d)).map Prod.fst) := by
  intro docs
  induction docs with
  | nil => intro r0 f0; simp
  | cons d rest ih =>
    intro r0 f0
    rw [List.foldl_cons, List.map_cons, List.filter_cons]
    cases hstep : step d with
    | ok r =>
      have hrow : rowOfStep step d = r.1 := by
        unfold rowOfStep
        rw [hstep]
      have hfail : failedOfStep step d = !r.2 := by
        unfold failedOfStep
        rw [hstep]
      cases hr2 : r.2 with
      | true =>
        simp only [hstep, hr2, if_true, hfail, Bool.not_true,
          Bool.false_eq_true, if_false]
        rw [ih]
        rw [hrow]
        simp
      | false =>
        simp only [hstep, hr2, Bool.false_eq_true, if_false, hfail,
          Bool.not_false, if_true]
        rw [ih]
        rw [hrow]
        simp
    | error e =>
      have hrow : rowOfStep step d = errRow d.2 := by
        unfold rowOfStep
        rw [hstep]
      have hfail : failedOfStep step d = true := by
        unfold failedOfStep
        rw [hstep]
      simp only [hstep, hfail, if_true]
      rw [ih]
      rw [hrow]
      simp

/-! ### Claim theorems -/

/-- C1 (counterexample): the record merge in `process_pdf` is the plain
dictionary update `row.update(parsed)`; applied to a base whose
`CA total_Cumul` slot holds the non-empty value `"5"` and a supplement
holding `"7"`, the merged slot is `"7"`, not the base's value — the merge,
as implemented, does overwrite a non-empty base slot. -/
theorem C1_counterexample :
    dictGetD (dictSet row0 "CA total_Cumul" "5") "CA total_Cumul" = "5" ∧
    dictGetD (pyUpdate (dictSet row0 "CA total_Cumul" "5")
      [("CA total_Cumul", "7")]) "CA total_Cumul" = "7" ∧
    ("7" : String) ≠ "5" :=
  ⟨by decide, by decide, by decide⟩

/-- C1 (amended): the pipeline's only merge step is the unconditional
dictionary update of the record with the single parse candidate; although
that update would overwrite a non-empty slot, every CA/Vente slot of the
base record is empty (`""`) when the update runs, so the merged record's
slot always equals the parse candidate's value and no non-empty value is
ever overwritten in an actual run. -/
theorem C1_theorem (stem raw k : String) (hk : k ∈ slotKeys)
    (hok : strip_ok (norm_spaces_keep_lines raw) = true) :
    dictGet (rowAfterMeta (norm_spaces_keep_lines raw)) k = some "" ∧
    dictGetD (process_pdf stem raw).1 k =
      dictGetD (parse_blocks_adaptive (norm_spaces_keep_lines raw)) k := by
  have hmf := List.mem_filter.mp (show k ∈ HEADERS.filter
    (fun k2 => pyStartsWith "CA " k2 || pyStartsWith "Vente " k2) from hk)
  exact ⟨rowAfterMeta_slot_empty _ k hmf.2 hmf.1,
    processRow_slot stem raw k hk hok⟩

/-- C1 (witness). -/
theorem C1_witness :
    dictGet (rowAfterMeta (norm_spaces_keep_lines "Total 1 2 3"))
      "CA total_Cumul" = some "" ∧
    dictGetD (process_pdf "doc" "Total 1 2 3").1 "CA total_Cumul" =
      dictGetD (parse_blocks_adaptive (norm_spaces_keep_lines "Total 1 2 3"))
        "CA total_Cumul" :=
  C1_theorem "doc" "Total 1 2 3" "CA total_Cumul" (by decide) (by decide)

/-- C2 (counterexample): on a document whose `Total` label is separated
from its numbers by about 460 characters of filler, the specified
two-window architecture (narrow 400 / wide 800, both candidates retained
and merged) recovers `("1","2","3")` for `CA total`, while the source
pipeline — which runs its line parser exactly once with a fixed 6-line
span and no window parameter — leaves the slot empty.  The pipeline is
therefore not running the parser at two window widths and retaining both
candidates. -/
theorem C2_counterexample :
    dictGetD (process_pdf "doc" c2Text).1 "CA total_Cumul" = "" ∧
    getTripleD (specTwoWindowMerge c2Text) "CA total" = ("1", "2", "3") ∧
    ("" : String) ≠ "1" :=
  ⟨by decide, by decide, by decide⟩

/-- C2 (amended): for every acquired text, the parser is run exactly once
(no window parameter; numbers are collected over a fixed span of six
lines), and every CA/Vente slot of the assembled record equals that single
run's value — no second candidate is produced, retained or merged. -/
theorem C2_theorem (stem raw k : String) (hk : k ∈ slotKeys)
    (hok : strip_ok (norm_spaces_keep_lines raw) = true) :
    dictGetD (process_pdf stem raw).1 k =
      dictGetD (parse_blocks_adaptive (norm_spaces_keep_lines raw)) k :=
  processRow_slot stem raw k hk hok

/-- C2 (witness). -/
theorem C2_witness :
    dictGetD (process_pdf "doc" "xcash1 2 3\ntotal 4 5").1 "CA Espece_Interim" =
      dictGetD (parse_blocks_adaptive
        (norm_spaces_keep_lines "xcash1 2 3\ntotal 4 5")) "CA Espece_Interim" :=
  C2_theorem "doc" "xcash1 2 3\ntotal 4 5" "CA Espece_Interim"
    (by decide) (by decide)

/-- C4 (counterexample): with backend outputs `""` (first), `" "` (second,
non-empty but whitespace-only) and `"x"` (third), the chain does not
return the second backend's non-empty text: it calls the third backend and
returns its text — `strip_ok` tests non-blankness, not non-emptiness. -/
theorem C4_counterexample :
    extract_text_any "" " " "x" "" = ("x", 3) ∧
    (" " : String) ≠ "" ∧ (" " : String) ≠ "x" :=
  ⟨by decide, by decide, by decide⟩

/-- C4 (amended): the acquisition chain tries the backends in fixed order
and returns the first non-blank result (one containing a non-whitespace
character) without invoking any later backend: if the first backend's
output is blank and the second's is non-blank, the second's text is
returned after exactly two backend invocations, so the OCR backend is
never called. -/
theorem C4_theorem (b1 b2 b3 b4 : String) (h1 : strip_ok b1 = false)
    (h2 : strip_ok b2 = true) :
    extract_text_any b1 b2 b3 b4 = (b2, 2) := by
  simp [extract_text_any, h1, h2]

/-- C4 (witness). -/
theorem C4_witness : extract_text_any "" "hello" "a" "b" = ("hello", 2) :=
  C4_theorem "" "hello" "a" "b" (by decide) (by decide)

/-- C6 (code bug): on the input text `"Code gratuit 8 : 123"`, the
codes-and-key extractor produces an entry for index 8 — outside 1..7 — so
the assembled record gains the key `"Code gratuit 8"`, which is not a
column of the fixed schema `HEADERS`; the record's keys are then not the
schema columns (and `csv.DictWriter(fieldnames=HEADERS)` would raise on
this row, aborting the batch). -/
theorem C6_theorem :
    dictKeys (extract_codes_and_key "Code gratuit 8 : 123") =
      ["Code gratuit 8"] ∧
    "Code gratuit 8" ∉ HEADERS ∧
    "Code gratuit 8" ∈ dictKeys (process_pdf "doc" "Code gratuit 8 : 123").1 ∧
    dictKeys (process_pdf "doc" "Code gratuit 8 : 123").1 ≠ HEADERS :=
  ⟨by decide, by decide, by decide, by decide⟩

/-- C7 (counterexample): no variant of the field `Vente Total` occurs in
the text `"Total 1 2 3"`, yet the fallback keyword rule of
`canonical_from_line` maps the line to `Vente Total` and its triple comes
out `("1","2","3")`, not the fully empty triple the claim requires. -/
theorem C7_counterexample :
    (∀ p ∈ LABELS_VENTES, p.1 = "Vente Total" →
      ∀ v ∈ p.2, containsSub (pyLower v) (pyLower "Total 1 2 3") = false) ∧
    tripleOf (parse_blocks_adaptive "Total 1 2 3") "Vente Total" =
      ("1", "2", "3") ∧
    (("1", "2", "3") : Triple) ≠ ("", "", "") :=
  ⟨by decide, by decide, by decide⟩

/-- C7 (amended): for every canonical field and every text in which no line
is classified to that field — neither by variant containment nor by the
fallback keyword rules — the field's triple in the parse result is exactly
`("", "", "")`; it is never partially populated. -/
theorem C7_theorem (g : Bool) (f : String) (text : String)
    (hf : f ∈ canonNames g)
    (h : ∀ ln ∈ linesNorm text, canonical_from_line ln g ≠ some f) :
    tripleOf (parse_blocks_adaptive text) f = ("", "", "") :=
  parse_tripleOf_none g f text hf h

/-- C7 (witness). -/
theorem C7_witness :
    ("CA Espece" ∈ canonNames true) ∧
    tripleOf (parse_blocks_adaptive "hello\nworld") "CA Espece" = ("", "", "") :=
  ⟨by decide, C7_theorem true "CA Espece" "hello\nworld" (by decide) (by decide)⟩

/-- C8 (counterexample): in `"Cashless 1 120,50 45€ 3.2"` the known
variant `"Cashless 1"` of the field `CA Cashless1` occurs, followed by
exactly the numeric tokens `120,50`, `45€`, `3.2` — yet the field's triple
is `("", "", "")`, because the containment scan reaches the variant
`"Cash"` (of `CA Espece`) first, `"cash"` being a substring of
`"cashless"`.  The values land in `CA Espece` instead. -/
theorem C8_counterexample :
    (∀ p ∈ LABELS_CA, p.1 = "CA Cashless1" → "Cashless 1" ∈ p.2) ∧
    containsSub (pyLower "Cashless 1")
      (pyLower "Cashless 1 120,50 45€ 3.2") = true ∧
    findallNum (String.mk (("Cashless 1 120,50 45€ 3.2").data.drop 10)) =
      ["120,50", "45€", "3.2"] ∧
    tripleOf (parse_blocks_adaptive "Cashless 1 120,50 45€ 3.2")
      "CA Cashless1" = ("", "", "") ∧
    (("", "", "") : Triple) ≠ ("120.50", "45", "3.2") :=
  ⟨by decide, by decide, by decide, by decide, by decide⟩

/-- C8 (amended): for every canonical field and text in which exactly one
line is classified to that field, no column-header line is present, and
the numeric tokens found in that line and the following five lines are
exactly `"120,50"`, `"45€"`, `"3.2"` in that order, the resulting field
triple is `("120.50", "45", "3.2")` — currency marker stripped, comma
decimal separator converted to point, tokens assigned to
(Cumulative, Interim, Interim2) in order of appearance. -/
theorem C8_theorem (g : Bool) (f : String) (text : String) (j : Nat)
    (hf : f ∈ canonNames g)
    (hhdr : find_col_header_positions (linesNorm text) = none)
    (hj : j < (linesNorm text).length)
    (hmatch : canonical_from_line ((linesNorm text).get ⟨j, hj⟩) g = some f)
    (huniq : ∀ j2 (h2 : j2 < (linesNorm text).length), j2 ≠ j →
      canonical_from_line ((linesNorm text).get ⟨j2, h2⟩) g ≠ some f)
    (htoks : (((linesNorm text).drop j).take 6).flatMap findallNum =
      ["120,50", "45€", "3.2"]) :
    tripleOf (parse_blocks_adaptive text) f = ("120.50", "45", "3.2") := by
  have hnums : parse_numbers_from_near (linesNorm text) j 6 =
      ["120.50", "45", "3.2"] := by
    unfold parse_numbers_from_near
    rw [flatMap_map_clean, htoks]
    rfl
  rw [parse_tripleOf_unique g f text hf hhdr j hj hmatch huniq, hnums]
  rfl

/-- C8 (witness). -/
theorem C8_witness :
    canonical_from_line "Total 120,50 45€ 3.2" true = some "CA total" ∧
    tripleOf (parse_blocks_adaptive "Total 120,50 45€ 3.2") "CA total" =
      ("120.50", "45", "3.2") :=
  ⟨by decide,
    C8_theorem true "CA total" "Total 120,50 45€ 3.2" 0 (by decide) (by decide)
      (by decide) (by decide)
      (by
        intro j2 h2 hne
        have hlen : (linesNorm "Total 120,50 45€ 3.2").length = 1 := by decide
        rw [hlen] at h2
        exact absurd (Nat.lt_one_iff.mp h2) hne)
      (by decide)⟩

/-- C3: for every document, the completeness score equals the count of the
36 CA/Vente schema slots whose value passes the code's strict numeric
parse (`float`), and the record is classified successful if and only if
that count reaches `MIN_NUMERIC_FIELDS` (6); in particular, the record for
the text `"xcash1 2 3\ntotal 4 5"` has exactly 7 valid numeric slots and
is classified successful. -/
theorem C3_theorem :
    (∀ stem raw : String,
      numeric_count (process_pdf stem raw).1 =
        slotKeys.countP
          (fun k => pyFloatOk (dictGetD (process_pdf stem raw).1 k)) ∧
      ((process_pdf stem raw).2 = true ↔
        MIN_NUMERIC_FIELDS ≤ numeric_count (process_pdf stem raw).1)) ∧
    (numeric_count (process_pdf "doc" "xcash1 2 3\ntotal 4 5").1 = 7 ∧
      (process_pdf "doc" "xcash1 2 3\ntotal 4 5").2 = true) := by
  constructor
  · intro stem raw
    by_cases hok : strip_ok (norm_spaces_keep_lines raw) = true
    · have h1 : (process_pdf stem raw).1 =
          pyUpdate (rowAfterMeta (norm_spaces_keep_lines raw))
            (parse_blocks_adaptive (norm_spaces_keep_lines raw)) := by
        simp only [process_pdf, hok, Bool.not_true, Bool.false_eq_true,
          if_false]
      have h2 : (process_pdf stem raw).2 =
          decide (MIN_NUMERIC_FIELDS ≤ numeric_count
            (pyUpdate (rowAfterMeta (norm_spaces_keep_lines raw))
              (parse_blocks_adaptive (norm_spaces_keep_lines raw)))) := by
        simp only [process_pdf, hok, Bool.not_true, Bool.false_eq_true,
          if_false]
      rw [h1, h2]
      refine ⟨numeric_count_eq _ (rowFinal_nodup _) (rowFinal_struct _), ?_⟩
      exact decide_eq_true_iff
    · have hfalse : strip_ok (norm_spaces_keep_lines raw) = false := by
        simpa using hok
      have h1 : (process_pdf stem raw).1 = dictSet row0 "id" stem := by
        simp only [process_pdf, hfalse, Bool.not_false, if_true]
      have h2 : (process_pdf stem raw).2 = false := by
        simp only [process_pdf, hfalse, Bool.not_false, if_true]
      rw [h1, h2]
      have hstruct : ∃ extra, dictKeys (dictSet row0 "id" stem) =
          HEADERS ++ extra ∧ ∀ x ∈ extra,
            (pyStartsWith "CA " x || pyStartsWith "Vente " x) = false :=
        ⟨[], by rw [blankRow_keys]; simp, by simp⟩
      have hnodup : (dictKeys (dictSet row0 "id" stem)).Nodup := by
        rw [blankRow_keys]
        decide
      have hcount : numeric_count (dictSet row0 "id" stem) = 0 := by
        rw [numeric_count_eq _ hnodup hstruct, List.countP_eq_zero]
        intro k hk
        rw [blankRow_slot stem k hk]
        decide
      refine ⟨numeric_count_eq _ hnodup hstruct, ?_⟩
      rw [hcount]
      simp [MIN_NUMERIC_FIELDS]
  · exact ⟨by decide, by decide⟩

/-- C5: in the batch loop of `main`, a document whose processing raises is
caught at the document boundary: the batch still produces one output row
per document in order — every other document's row is exactly what its
processing yields — and the failing document's row holds only its
identifier (stem), with the document counted among the failed files. -/
theorem C5_theorem (step : PdfDoc → Except Unit (PyDict × Bool))
    (docs : List PdfDoc) (i : Nat) (hi : i < docs.length)
    (herr : step (docs.get ⟨i, hi⟩) = Except.error ()) :
    (runBatch step docs).1 = docs.map (rowOfStep step) ∧
    (runBatch step docs).1.length = docs.length ∧
    rowOfStep step (docs.get ⟨i, hi⟩) = errRow (docs.get ⟨i, hi⟩).2 ∧
    (docs.get ⟨i, hi⟩).1 ∈ (runBatch step docs).2 ∧
    (runBatch step docs).2 =
      (docs.filter (fun d => failedOfStep step d)).map Prod.fst := by
  have hchar := runBatch_characterization step docs [] []
  have hrun : runBatch step docs =
      (docs.map (rowOfStep step),
        (docs.filter (fun d => failedOfStep step d)).map Prod.fst) := by
    unfold runBatch
    rw [hchar]
    simp
  have hrow : rowOfStep step (docs.get ⟨i, hi⟩) =
      errRow (docs.get ⟨i, hi⟩).2 := by
    unfold rowOfStep
    rw [herr]
  refine ⟨by rw [hrun], by rw [hrun]; simp, hrow, ?_, by rw [hrun]⟩
  rw [hrun]
  apply List.mem_map_of_mem Prod.fst
  rw [List.mem_filter]
  refine ⟨List.get_mem docs i hi, ?_⟩
  unfold failedOfStep
  rw [herr]

/-- The concrete batch used to witness C5: one good document, one whose
processing raises. -/
def docsW : List PdfDoc := [("good.pdf", "good"), ("bad.pdf", "bad")]

/-- The concrete per-document step used to witness C5. -/
def stepW : PdfDoc → Except Unit (PyDict × Bool) := fun d =>
  if d.1 = "bad.pdf" then Except.error ()
  else Except.ok ([("id", "ok")], true)

/-- C5 (witness). -/
theorem C5_witness :
    (runBatch stepW docsW).1 = docsW.map (rowOfStep stepW) ∧
    (runBatch stepW docsW).1.length = docsW.length ∧
    rowOfStep stepW (docsW.get ⟨1, by decide⟩) =
      errRow (docsW.get ⟨1, by decide⟩).2 ∧
    (docsW.get ⟨1, by decide⟩).1 ∈ (runBatch stepW docsW).2 ∧
    (runBatch stepW docsW).2 =
      (docsW.filter (fun d => failedOfStep stepW d)).map Prod.fst :=
  C5_theorem stepW docsW 1 (by decide) rfl

/-- C10: if the acquired text is non-blank but no line among the first 150
non-blank lines contains the brand marker `TOUCH` (case-insensitively),
the record's identifier is the empty string; the filename stem becomes the
identifier exactly when the acquired text is blank (the exception path,
handled in the batch loop, also uses the stem — see `errRow`). -/
theorem C10_theorem (stem raw : String) :
    (strip_ok (norm_spaces_keep_lines raw) = true →
      (∀ ln ∈ ((pySplitlines (norm_spaces_keep_lines raw)).filter
          (fun ln => strip_ok ln)).take 150,
        containsSub "TOUCH" (pyUpper ln) = false) →
      dictGetD (process_pdf stem raw).1 "id" = "") ∧
    (strip_ok (norm_spaces_keep_lines raw) = false →
      dictGetD (process_pdf stem raw).1 "id" = stem) := by
  constructor
  · intro hok h150
    have h1 : (process_pdf stem raw).1 =
        pyUpdate (rowAfterMeta (norm_spaces_keep_lines raw))
          (parse_blocks_adaptive (norm_spaces_keep_lines raw)) := by
      simp only [process_pdf, hok, Bool.not_true, Bool.false_eq_true, if_false]
    rw [h1]
    unfold dictGetD
    rw [dictGet_pyUpdate _ _ _ (parse_keys_nodup _)]
    have hparse : dictGet (parse_blocks_adaptive
        (norm_spaces_keep_lines raw)) "id" = none := by
      apply dictGet_eq_none_of_not_mem
      intro hmem
      have := parse_keys_in_slotKeys _ _ hmem
      revert this
      decide
    rw [hparse]
    unfold rowAfterMeta
    rw [dictGet_pyUpdate _ _ _ (codes_keys_nodup _)]
    have hcodes : dictGet (extract_codes_and_key
        (norm_spaces_keep_lines raw)) "id" = none := by
      apply dictGet_eq_none_of_not_mem
      intro hmem
      rcases codes_keys_shape _ _ hmem with h | h
      · revert h
        decide
      · revert h
        decide
    rw [hcodes]
    rw [dictGet_pyUpdate _ _ _ (by
      rw [show dictKeys (parse_header (norm_spaces_keep_lines raw)) =
        ["id", "date", "Numéro de relevé"] from rfl]
      decide)]
    have hfind : (((pySplitlines (norm_spaces_keep_lines raw)).filter
        (fun ln => strip_ok ln)).take 150).find?
          (fun ln => containsSub "TOUCH" (pyUpper ln)) = none := by
      rw [List.find?_eq_none]
      intro ln hln
      rw [h150 ln hln]
      exact Bool.false_ne_true
    have hid : dictGet (parse_header (norm_spaces_keep_lines raw)) "id" =
        some "" := by
      unfold parse_header
      rw [dictGet_cons, if_pos rfl, hfind]
    rw [hid]
    rfl
  · intro hblank
    have h1 : (process_pdf stem raw).1 = dictSet row0 "id" stem := by
      simp only [process_pdf, hblank, Bool.not_false, if_true]
    rw [h1]
    unfold dictGetD
    rw [dictGet_dictSet, if_pos rfl]
    rfl

/-- C10 (witness). -/
theorem C10_witness :
    dictGetD (process_pdf "mystem" "hello\nworld").1 "id" = "" ∧
    dictGetD (process_pdf "mystem" "   ").1 "id" = "mystem" := by
  have h1 := C10_theorem "mystem" "hello\nworld"
  have h2 := C10_theorem "mystem" "   "
  exact ⟨h1.1 (by decide) (by decide), h2.2 (by decide)⟩

/-! ### Normalizer lemmas (towards C9) -/

theorem dropWhile_idem (p : Char → Bool) :
    ∀ l : List Char, (l.dropWhile p).dropWhile p = l.dropWhile p := by
  intro l
  induction l with
  | nil => rfl
  | cons c cs ih =>
    rw [List.dropWhile_cons]
    by_cases hc : p c = true
    · rw [if_pos hc, ih]
    · rw [if_neg hc, List.dropWhile_cons, if_neg hc]

theorem pyRstripL_idem (l : List Char) :
    pyRstripL (pyRstripL l) = pyRstripL l := by
  unfold pyRstripL
  rw [List.reverse_reverse, dropWhile_idem]

theorem pyRstripL_prefixOf (l : List Char) : pyRstripL l <+: l := by
  unfold pyRstripL
  refine ⟨(l.reverse.takeWhile pyWS).reverse, ?_⟩
  rw [← List.reverse_append, List.takeWhile_append_dropWhile,
    List.reverse_reverse]

theorem collapseGo_mem : ∀ (b : Bool) (l : List Char) (c : Char),
    c ∈ collapseGo b l → c = ' ' ∨ c ∈ l := by
  intro b l
  induction l generalizing b with
  | nil =>
    intro c hc
    cases hc
  | cons d ds ih =>
    intro c hc
    simp only [collapseGo] at hc
    by_cases hd : isCollapsible d = true
    · rw [if_pos hd] at hc
      cases b with
      | true =>
        rcases ih true c hc with h | h
        · exact Or.inl h
        · exact Or.inr (List.mem_cons.mpr (Or.inr h))
      | false =>
        rcases List.mem_cons.mp hc with h | h
        · exact Or.inl h
        · rcases ih true c h with h2 | h2
          · exact Or.inl h2
          · exact Or.inr (List.mem_cons.mpr (Or.inr h2))
    · rw [if_neg hd] at hc
      rcases List.mem_cons.mp hc with h | h
      · exact Or.inr (List.mem_cons.mpr (Or.inl h))
      · rcases ih false c h with h2 | h2
        · exact Or.inl h2
        · exact Or.inr (List.mem_cons.mpr (Or.inr h2))

theorem collapseGo_coll_eq_space : ∀ (b : Bool) (l : List Char) (c : Char),
    c ∈ collapseGo b l → isCollapsible c = true → c = ' ' := by
  intro b l
  induction l generalizing b with
  | nil =>
    intro c hc
    cases hc
  | cons d ds ih =>
    intro c hc hcol
    simp only [collapseGo] at hc
    by_cases hd : isCollapsible d = true
    · rw [if_pos hd] at hc
      cases b with
      | true => exact ih true c hc hcol
      | false =>
        rcases List.mem_cons.mp hc with h | h
        · exact h
        · exact ih true c h hcol
    · rw [if_neg hd] at hc
      rcases List.mem_cons.mp hc with h | h
      · rw [h] at hcol
        exact absurd hcol (by simp [hd])
      · exact ih false c h hcol

/-- The head of the output cannot be a collapsible character when the run
flag is set. -/
def headNotColl (x : List Char) : Prop :=
  ∀ c, x.head? = some c → isCollapsible c = false

theorem collapseGo_true_headNotColl : ∀ l : List Char,
    headNotColl (collapseGo true l) := by
  intro l
  induction l with
  | nil =>
    intro c hc
    cases hc
  | cons d ds ih =>
    intro c hc
    simp only [collapseGo] at hc
    by_cases hd : isCollapsible d = true
    · rw [if_pos hd] at hc
      exact ih c hc
    · rw [if_neg hd] at hc
      injection hc with hc
      rw [← hc]
      simpa using hd

/-- Adjacent collapsible characters never survive collapsing. -/
def RC : Char → Char → Prop :=
  fun a b => ¬(isCollapsible a = true ∧ isCollapsible b = true)

theorem collapseGo_chain : ∀ (l : List Char) (b : Bool),
    (collapseGo b l).Chain' RC := by
  intro l
  induction l with
  | nil =>
    intro b
    simp [collapseGo]
  | cons d ds ih =>
    intro b
    simp only [collapseGo]
    by_cases hd : isCollapsible d = true
    · rw [if_pos hd]
      cases b with
      | true => simpa using ih true
      | false =>
        simp only [Bool.false_eq_true, if_false]
        rw [List.chain'_cons']
        refine ⟨?_, ih true⟩
        intro y hy hcon
        have := collapseGo_true_headNotColl ds y (Option.mem_def.mp hy)
        rw [this] at hcon
        exact Bool.false_ne_true hcon.2
    · rw [if_neg hd]
      rw [List.chain'_cons']
      refine ⟨?_, ih false⟩
      intro y _ hcon
      exact hd hcon.1

theorem collapseGo_eq_self : ∀ l : List Char,
    l.Chain' RC → (∀ c ∈ l, isCollapsible c = true → c = ' ') →
    (collapseGo false l = l ∧ (headNotColl l → collapseGo true l = l)) := by
  intro l
  induction l with
  | nil => exact fun _ _ => ⟨rfl, fun _ => rfl⟩
  | cons d ds ih =>
    intro hchain hsp
    obtain ⟨hR, htail⟩ := List.chain'_cons'.mp hchain
    have ihds := ih htail
      (fun c hc => hsp c (List.mem_cons.mpr (Or.inr hc)))
    constructor
    · simp only [collapseGo]
      by_cases hd : isCollapsible d = true
      · rw [if_pos hd]
        simp only [Bool.false_eq_true, if_false]
        have hd2 : d = ' ' := hsp d (List.mem_cons_self _ _) hd
        have hhead : headNotColl ds := by
          intro c hc
          have hRc := hR c (Option.mem_def.mpr hc)
          cases hcol : isCollapsible c with
          | false => rfl
          | true => exact absurd ⟨hd, hcol⟩ hRc
        rw [ihds.2 hhead, hd2]
      · rw [if_neg hd, ihds.1]
    · intro hhead
      simp only [collapseGo]
      have hd : isCollapsible d = false := hhead d rfl
      rw [if_neg (by simp [hd]), ihds.1]

theorem chain_prefixOf {x y : List Char} (h : x <+: y) (hc : y.Chain' RC) :
    x.Chain' RC := by
  obtain ⟨t, ht⟩ := h
  rw [← ht] at hc
  exact (List.chain'_append.mp hc).1

/-- The per-line normalization `rstrip ∘ collapse` is idempotent. -/
theorem collapse_rstrip_idem (l : List Char) :
    pyRstripL (collapseL (pyRstripL (collapseL l))) =
      pyRstripL (collapseL l) := by
  have hchain : (collapseL l).Chain' RC := collapseGo_chain l false
  have hsp : ∀ c ∈ collapseL l, isCollapsible c = true → c = ' ' :=
    fun c hc => collapseGo_coll_eq_space false l c hc
  have hpre : pyRstripL (collapseL l) <+: collapseL l :=
    pyRstripL_prefixOf (collapseL l)
  have hchain2 : (pyRstripL (collapseL l)).Chain' RC := chain_prefixOf hpre hchain
  have hsp2 : ∀ c ∈ pyRstripL (collapseL l), isCollapsible c = true → c = ' ' :=
    fun c hc => hsp c (hpre.subset hc)
  have hid : collapseL (pyRstripL (collapseL l)) = pyRstripL (collapseL l) :=
    (collapseGo_eq_self (pyRstripL (collapseL l)) hchain2 hsp2).1
  rw [show collapseL (pyRstripL (collapseL l)) =
    collapseGo false (pyRstripL (collapseL l)) from rfl] at hid
  rw [show collapseL (pyRstripL (collapseL l)) =
    collapseGo false (pyRstripL (collapseL l)) from rfl, hid, pyRstripL_idem]

theorem fLine_subset (l : List Char) :
    ∀ c ∈ pyRstripL (collapseL l), c = ' ' ∨ c ∈ l := by
  intro c hc
  exact collapseGo_mem false l c ((pyRstripL_prefixOf (collapseL l)).subset hc)

theorem splitAux_termFree : ∀ (n : Nat) (l acc : List Char), l.length ≤ n →
    (∀ c ∈ acc, isTerm c = false) →
    ∀ line ∈ pySplitAux acc l, ∀ c ∈ line, isTerm c = false := by
  intro n
  induction n with
  | zero =>
    intro l acc hl hacc line hline c hc
    have hnil : l = [] := List.length_eq_zero.mp (Nat.le_zero.mp hl)
    subst hnil
    rw [show pySplitAux acc [] = [acc.reverse] from rfl,
      List.mem_singleton] at hline
    subst hline
    exact hacc c (List.mem_reverse.mp hc)
  | succ n ih =>
    intro l acc hl hacc line hline c hc
    cases l with
    | nil =>
      rw [show pySplitAux acc [] = [acc.reverse] from rfl,
        List.mem_singleton] at hline
      subst hline
      exact hacc c (List.mem_reverse.mp hc)
    | cons d ds =>
      rw [pySplitAux.eq_def] at hline
      simp only at hline
      by_cases hd : isTerm d = true
      · rw [if_pos hd] at hline
        split at hline
        all_goals first
          | (rw [List.mem_singleton] at hline
             subst hline
             exact hacc c (List.mem_reverse.mp hc))
          | (rcases List.mem_cons.mp hline with h1 | h1
             · subst h1
               exact hacc c (List.mem_reverse.mp hc)
             · refine ih _ [] ?_ (by intro x hx; cases hx) line h1 c hc
               simp only [List.length_cons] at hl ⊢
               omega)
      · rw [if_neg hd] at hline
        refine ih ds (d :: acc) ?_ ?_ line hline c hc
        · simp only [List.length_cons] at hl
          omega
        · intro x hx
          rcases List.mem_cons.mp hx with h1 | h1
          · subst h1
            simpa using hd
          · exact hacc x h1

theorem pySplitAux_append : ∀ (l r acc : List Char),
    (∀ c ∈ l, isTerm c = false) →
    pySplitAux acc (l ++ r) = pySplitAux (l.reverse ++ acc) r := by
  intro l
  induction l with
  | nil =>
    intro r acc _
    simp
  | cons d ds ih =>
    intro r acc h
    have hd : isTerm d = false := h d (List.mem_cons_self _ _)
    have hcond : ¬ isTerm d = true := by simp [hd]
    rw [List.cons_append]
    have hstep : pySplitAux acc (d :: (ds ++ r)) =
        pySplitAux (d :: acc) (ds ++ r) := by
      unfold pySplitAux
      rw [if_neg hcond]
      exact pySplitAux.eq_def (d :: acc) (ds ++ r)
    rw [hstep, ih r (d :: acc) (fun c hc => h c (List.mem_cons.mpr (Or.inr hc)))]
    rw [List.reverse_cons, List.append_assoc]
    rfl

theorem pySplitlinesL_eq_aux (x : List Char) (h : x ≠ []) :
    pySplitlinesL x = pySplitAux [] x := by
  cases x with
  | nil => exact absurd rfl h
  | cons c cs => rfl

theorem joinNL_ne_nil : ∀ ls : List (List Char), ls ≠ [] →
    ls.getLast? ≠ some [] → joinNL ls ≠ [] := by
  intro ls
  match ls with
  | [] => intro h _; exact absurd rfl h
  | [l] =>
    intro _ hlast
    rw [show joinNL [l] = l from rfl]
    intro hl
    exact hlast (by rw [hl]; rfl)
  | l :: l2 :: ls2 =>
    intro _ _
    rw [show joinNL (l :: l2 :: ls2) = l ++ '\n' :: joinNL (l2 :: ls2) from rfl]
    simp

theorem split_joinNL : ∀ ls : List (List Char), ls ≠ [] →
    (∀ l ∈ ls, ∀ c ∈ l, isTerm c = false) →
    ls.getLast? ≠ some [] →
    pySplitlinesL (joinNL ls) = ls := by
  intro ls
  induction ls with
  | nil => intro h; exact absurd rfl h
  | cons l ls2 ih =>
    intro _ hterm hlast
    cases ls2 with
    | nil =>
      have hl : l ≠ [] := fun h => hlast (by rw [h]; rfl)
      rw [show joinNL [l] = l from rfl, pySplitlinesL_eq_aux l hl]
      have h2 := pySplitAux_append l [] []
        (hterm l (List.mem_cons_self _ _))
      rw [List.append_nil, List.append_nil] at h2
      rw [h2]
      simp only [pySplitAux]
      rw [List.reverse_reverse]
    | cons l2 ls3 =>
      have hlast2 : (l2 :: ls3).getLast? ≠ some [] := by
        rw [← List.getLast?_cons_cons (a := l)]
        exact hlast
      have hrest_ne : joinNL (l2 :: ls3) ≠ [] :=
        joinNL_ne_nil (l2 :: ls3) (by simp) hlast2
      obtain ⟨e, es, hees⟩ := List.exists_cons_of_ne_nil hrest_ne
      rw [show joinNL (l :: l2 :: ls3) = l ++ '\n' :: joinNL (l2 :: ls3)
        from rfl]
      rw [pySplitlinesL_eq_aux _ (by simp)]
      have h3 := pySplitAux_append l ('\n' :: joinNL (l2 :: ls3)) []
        (hterm l (List.mem_cons_self _ _))
      rw [List.append_nil] at h3
      rw [h3, hees]
      rw [show pySplitAux l.reverse ('\n' :: e :: es) =
        l.reverse.reverse :: pySplitAux [] (e :: es) from rfl]
      rw [List.reverse_reverse, ← hees,
        ← pySplitlinesL_eq_aux _ hrest_ne,
        ih (by simp)
          (fun l3 h3 => hterm l3 (List.mem_cons.mpr (Or.inr h3))) hlast2]

theorem mem_joinNL : ∀ (ls : List (List Char)) (c : Char), c ∈ joinNL ls →
    c = '\n' ∨ ∃ l ∈ ls, c ∈ l := by
  intro ls
  induction ls with
  | nil =>
    intro c hc
    cases hc
  | cons l ls2 ih =>
    intro c hc
    cases ls2 with
    | nil =>
      rw [show joinNL [l] = l from rfl] at hc
      exact Or.inr ⟨l, List.mem_cons_self _ _, hc⟩
    | cons l2 ls3 =>
      rw [show joinNL (l :: l2 :: ls3) = l ++ '\n' :: joinNL (l2 :: ls3)
        from rfl] at hc
      rcases List.mem_append.mp hc with h1 | h1
      · exact Or.inr ⟨l, List.mem_cons_self _ _, h1⟩
      · rcases List.mem_cons.mp h1 with h2 | h2
        · exact Or.inl h2
        · rcases ih c h2 with h3 | ⟨l3, hl3, hcl3⟩
          · exact Or.inl h3
          · exact Or.inr ⟨l3, List.mem_cons.mpr (Or.inr hl3), hcl3⟩

theorem joinNL_last_nl : ∀ (ls2 : List (List Char)) (a b : List Char),
    (a :: b :: ls2).getLast? = some [] →
    (joinNL (a :: b :: ls2)).getLast? = some '\n' := by
  intro ls2
  induction ls2 with
  | nil =>
    intro a b hlast
    rw [List.getLast?_cons_cons] at hlast
    have hb : b = [] := by
      injection hlast
    subst hb
    rw [show joinNL [a, []] = a ++ ['\n'] from rfl]
    exact List.getLast?_concat a
  | cons c ls3 ih =>
    intro a b hlast
    rw [List.getLast?_cons_cons] at hlast
    have hrec := ih b c hlast
    rw [show joinNL (a :: b :: c :: ls3) = a ++ '\n' :: joinNL (b :: c :: ls3)
      from rfl]
    rw [List.getLast?_append_of_ne_nil a (by simp)]
    have hne : joinNL (b :: c :: ls3) ≠ [] := by
      rw [show joinNL (b :: c :: ls3) = b ++ '\n' :: joinNL (c :: ls3)
        from rfl]
      simp
    obtain ⟨e, es, hees⟩ := List.exists_cons_of_ne_nil hne
    rw [hees, List.getLast?_cons_cons, ← hees, hrec]

theorem map_self {α : Type} (l : List α) (f : α → α) (h : ∀ a ∈ l, f a = a) :
    l.map f = l := by
  induction l with
  | nil => rfl
  | cons a t ih =>
    rw [List.map_cons, h a (List.mem_cons_self _ _),
      ih (fun x hx => h x (List.mem_cons.mpr (Or.inr hx)))]

/-- Re-splitting and re-normalizing the joined normalized lines reproduces
them, provided the joined text does not end in a newline. -/
theorem joinNL_roundtrip (ls : List (List Char))
    (hterm : ∀ l ∈ ls, ∀ c ∈ l, isTerm c = false)
    (hf : ∀ l ∈ ls, pyRstripL (collapseL l) = l)
    (hlast : (joinNL ls).getLast? ≠ some '\n') :
    joinNL ((pySplitlinesL ((joinNL ls).filter (fun c => c ≠ '\r'))).map
      (fun ln => pyRstripL (collapseL ln))) = joinNL ls := by
  have hfilter : (joinNL ls).filter (fun c => c ≠ '\r') = joinNL ls := by
    rw [List.filter_eq_self]
    intro c hc
    rcases mem_joinNL ls c hc with h1 | ⟨l, hl, hcl⟩
    · rw [h1]
      decide
    · have hT := hterm l hl c hcl
      simp only [ne_eq, decide_eq_true_eq]
      intro heq
      rw [heq] at hT
      exact absurd hT (by decide)
  rw [hfilter]
  cases ls with
  | nil => rfl
  | cons l0 ls0 =>
    by_cases hl0 : ls0 = []
    · subst hl0
      by_cases hempty : l0 = []
      · subst hempty
        rfl
      · rw [split_joinNL [l0] (by simp) hterm
          (fun hsome => hempty (by
            rw [show ([l0] : List (List Char)).getLast? = some l0 from rfl]
              at hsome
            exact Option.some.inj hsome))]
        rw [map_self _ _ hf]
    · by_cases hlast2 : (l0 :: ls0).getLast? = some []
      · obtain ⟨l1, ls1, rfl⟩ := List.exists_cons_of_ne_nil hl0
        exact absurd (joinNL_last_nl ls1 l0 l1 hlast2) hlast
      · rw [split_joinNL (l0 :: ls0) (by simp) hterm hlast2, map_self _ _ hf]

/-- The normalized lines of a text (split on the carriage-return-free text,
then collapsed and right-stripped per line). -/
def normLines (s : String) : List (List Char) :=
  (pySplitlinesL (s.data.filter (fun c => c ≠ '\r'))).map
    (fun ln => pyRstripL (collapseL ln))

theorem norm_data (s : String) :
    (norm_spaces_keep_lines s).data = joinNL (normLines s) := rfl

theorem normLines_termFree (s : String) :
    ∀ l ∈ normLines s, ∀ c ∈ l, isTerm c = false := by
  intro l hl c hc
  obtain ⟨l0, hl0, rfl⟩ := List.mem_map.mp hl
  have hl0Term : ∀ c2 ∈ l0, isTerm c2 = false := by
    intro c2 hc2
    cases hx : s.data.filter (fun c3 => c3 ≠ '\r') with
    | nil =>
      rw [hx] at hl0
      cases hl0
    | cons a as =>
      rw [hx] at hl0
      exact splitAux_termFree (a :: as).length (a :: as) [] (le_refl _)
        (by intro y hy; cases hy) l0 hl0 c2 hc2
  rcases fLine_subset l0 c hc with h1 | h1
  · rw [h1]
    decide
  · exact hl0Term c h1

/-- C9 (counterexample): the normalizer is not idempotent: it maps
`"\n\n"` to `"\n"` (Python `splitlines` returns two empty lines, re-joined
with one newline), but maps `"\n"` to `""` — so applying it twice to
`"\n\n"` gives `""`, not `"\n"`. -/
theorem C9_counterexample :
    norm_spaces_keep_lines "\n\n" = "\n" ∧
    norm_spaces_keep_lines (norm_spaces_keep_lines "\n\n") = "" ∧
    ("" : String) ≠ "\n" :=
  ⟨rfl, rfl, by decide⟩

/-- C9 (amended): the normalizer is a pure function of its input (it is a
plain function in this embedding), and it is idempotent on every string
whose normalized form does not end with a newline character; the only
failures of idempotence come from `str.splitlines` dropping a trailing
empty line that the `"\n".join` re-created. -/
theorem C9_theorem (s : String)
    (h : (norm_spaces_keep_lines s).data.getLast? ≠ some '\n') :
    norm_spaces_keep_lines (norm_spaces_keep_lines s) =
      norm_spaces_keep_lines s := by
  have hterm := normLines_termFree s
  have hfix : ∀ l ∈ normLines s, pyRstripL (collapseL l) = l := by
    intro l hl
    obtain ⟨l0, _, rfl⟩ := List.mem_map.mp hl
    exact collapse_rstrip_idem l0
  have hlast : (joinNL (normLines s)).getLast? ≠ some '\n' := by
    rw [← norm_data]
    exact h
  have key := joinNL_roundtrip (normLines s) hterm hfix hlast
  exact congrArg String.mk key

/-- C9 (witness). -/
theorem C9_witness :
    norm_spaces_keep_lines (norm_spaces_keep_lines "a  b \nc") =
      norm_spaces_keep_lines "a  b \nc" :=
  C9_theorem "a  b \nc" (by decide)

end AnalysePdf
